import Mathlib

/-!
Shallow embedding of the vuex-orm core (src/Model.ts and src/Attributes.ts):
the field-descriptor model, relation resolution, field merging, model
instantiation, serialization, and the post-normalization foreign-key
attachment.  JavaScript runtime values are modelled by the inductive `Val`;
JavaScript exceptions (TypeError, failed registry lookups) are modelled by
`Option`.  The external graph-normalization primitive (`Data.normalize`,
`Schema`) and the connection container are not part of the sources and are
modelled from the specification where needed.
-/

set_option autoImplicit false

namespace VuexOrm

/-- A JavaScript runtime value: `null`, `undefined`, numbers, strings,
booleans, plain objects (ordered key/value lists), arrays, and model
instances (`vinst entity props` models a `Model` object whose own enumerable
properties are `props`). -/
inductive Val where
  | vnull : Val
  | vundefined : Val
  | vnum : Int → Val
  | vstr : String → Val
  | vbool : Bool → Val
  | vobj : List (String × Val) → Val
  | varr : List Val → Val
  | vinst : String → List (String × Val) → Val
deriving Repr

/-- Whether a value is exactly `null` (the `field.value === null` test). -/
def Val.isNullV : Val → Bool
  | .vnull => true
  | _ => false

namespace Val

/-- Structural decidable equality for `Val`. -/
def beqVal : Val → Val → Bool
  | vnull, vnull => true
  | vundefined, vundefined => true
  | vnum a, vnum b => a == b
  | vstr a, vstr b => a == b
  | vbool a, vbool b => a == b
  | vobj a, vobj b => beqPairs a b
  | varr a, varr b => beqList a b
  | vinst e a, vinst f b => e == f && beqPairs a b
  | _, _ => false
where
  beqPairs : List (String × Val) → List (String × Val) → Bool
    | [], [] => true
    | (k, v) :: xs, (k2, v2) :: ys => k == k2 && beqVal v v2 && beqPairs xs ys
    | _, _ => false
  beqList : List Val → List Val → Bool
    | [], [] => true
    | x :: xs, y :: ys => beqVal x y && beqList xs ys
    | _, _ => false

end Val

/-- JavaScript falsiness: `null`, `undefined`, `0`, the empty string,
`false` (and `NaN`, which we do not model) are falsy; every object, array
and instance is truthy. -/
def falsyV : Val → Bool
  | .vnull => true
  | .vundefined => true
  | .vnum n => n == 0
  | .vstr s => s == ""
  | .vbool b => !b
  | _ => false

/-- JavaScript truthiness. -/
def truthy (v : Val) : Bool := !falsyV v

/-- Property read on an ordered key/value list; a missing key yields
`undefined`, as in JavaScript. -/
def getv (r : List (String × Val)) (k : String) : Val :=
  match r with
  | [] => .vundefined
  | (k2, v) :: rest => if k2 = k then v else getv rest k

/-- Whether a key is present on an ordered key/value list. -/
def hasKey (r : List (String × Val)) (k : String) : Bool :=
  match r with
  | [] => false
  | (k2, _) :: rest => k2 == k || hasKey rest k

/-- Property write on an ordered key/value list: an existing key is updated
in place, a new key is appended (JavaScript insertion order). -/
def setv (r : List (String × Val)) (k : String) (v : Val) : List (String × Val) :=
  if hasKey r k then r.map (fun e => if e.1 = k then (e.1, v) else e)
  else r ++ [(k, v)]

/-- The JavaScript expression `v[0]`: `none` models the `TypeError` thrown
when indexing `null`/`undefined`; numbers and booleans yield `undefined`,
strings yield their first character, objects and instances read property
`"0"`, arrays yield their first element. -/
def index0 : Val → Option Val
  | .vnull => none
  | .vundefined => none
  | .vnum _ => some .vundefined
  | .vbool _ => some .vundefined
  | .vstr s => if s = "" then some .vundefined else some (.vstr (s.take 1))
  | .vobj kvs => some (getv kvs "0")
  | .varr l => some (l.headD .vundefined)
  | .vinst _ props => some (getv props "0")

/-- `_.isNumber`. -/
def isNum : Val → Bool
  | .vnum _ => true
  | _ => false

mutual

/-- A field descriptor (src/Attributes.ts): the closed set of field kinds.
`Attr` carries a default value and an optional mutator; each relation kind
carries its target (`ModelRef`), foreign key, current value and polymorphic
flag; `HasManyBy` additionally carries `otherKey`. -/
inductive Attrs where
  | attr : Val → Option (Val → Val) → Attrs
  | hasOne : ModelRef → String → Val → Bool → Attrs
  | belongsTo : ModelRef → String → Val → Bool → Attrs
  | hasMany : ModelRef → String → Val → Bool → Attrs
  | hasManyBy : ModelRef → String → String → Val → Bool → Attrs

/-- `typeof Model | string`: a relation target is either a concrete model
class or a deferred string name resolved through the connection container. -/
inductive ModelRef where
  | direct : ModelDef → ModelRef
  | byName : String → ModelRef

/-- A model class: its entity name, primary key, field definitions
(`static fields()`) and entity-level mutators (`static mutators()`). -/
inductive ModelDef where
  | mk : String → String → List (String × Attrs) → List (String × (Val → Val)) → ModelDef

end

namespace ModelDef

def entity : ModelDef → String
  | .mk e _ _ _ => e

def primaryKey : ModelDef → String
  | .mk _ pk _ _ => pk

def fields : ModelDef → List (String × Attrs)
  | .mk _ _ fs _ => fs

def mutators : ModelDef → List (String × (Val → Val))
  | .mk _ _ _ ms => ms

end ModelDef

namespace Attrs

/-- The descriptor's current `value`. -/
def getValue : Attrs → Val
  | .attr v _ => v
  | .hasOne _ _ v _ => v
  | .belongsTo _ _ v _ => v
  | .hasMany _ _ v _ => v
  | .hasManyBy _ _ _ v _ => v

/-- Overwrite the descriptor's `value` (the only mutation the merge step
performs); every other component is preserved. -/
def setValue : Attrs → Val → Attrs
  | .attr _ m, v => .attr v m
  | .hasOne r fk _ p, v => .hasOne r fk v p
  | .belongsTo r fk _ p, v => .belongsTo r fk v p
  | .hasMany r fk _ p, v => .hasMany r fk v p
  | .hasManyBy r fk ok _ p, v => .hasManyBy r fk ok v p

/-- `Attributes.isRelation`: every kind except `Attr`. -/
def isRelation : Attrs → Bool
  | .attr _ _ => false
  | _ => true

/-- The `polymorphic` flag of a relation descriptor (`false` for `Attr`). -/
def polymorphic : Attrs → Bool
  | .attr _ _ => false
  | .hasOne _ _ _ p => p
  | .belongsTo _ _ _ p => p
  | .hasMany _ _ _ p => p
  | .hasManyBy _ _ _ _ p => p

/-- The statically declared relation target (`Attr` has none). -/
def modelRef : Attrs → Option ModelRef
  | .attr _ _ => none
  | .hasOne r _ _ _ => some r
  | .belongsTo r _ _ _ => some r
  | .hasMany r _ _ _ => some r
  | .hasManyBy r _ _ _ _ => some r

end Attrs

/-- A connection's registry of model classes, keyed by entity name.  The
connection container (`src/connections/Container.ts`) is outside the given
sources; per the specification it is a read-only name-to-definition lookup
that fails loudly on unknown names, modelled by `Option`. -/
abbrev Registry : Type := List (String × ModelDef)

/-- Look a model up by name; `none` models the fatal configuration error on
unknown names. -/
def lookupReg (reg : Registry) (name : String) : Option ModelDef :=
  match reg with
  | [] => none
  | (k, m) :: rest => if k = name then some m else lookupReg rest name

/-- `Model.relation(name)`: the container lookup; the argument is the raw
JavaScript value used as name and must be a string. -/
def relationLookup (reg : Registry) (name : Val) : Option ModelDef :=
  match name with
  | .vstr s => lookupReg reg s
  | _ => none

/-- Read `value.type`, the polymorphic discriminator, off a raw value. -/
def typeDiscriminator (v : Val) : Val :=
  match v with
  | .vobj kvs => getv kvs "type"
  | .vinst _ props => getv props "type"
  | _ => .vundefined

/-- `Model.resolveRelation` (src/Model.ts lines 113-118): polymorphic
relations resolve through the container by the `type` discriminator of the
descriptor's current value; otherwise a string target is looked up by name
and a concrete class target is returned directly. -/
def resolveRelation (reg : Registry) (a : Attrs) : Option ModelDef :=
  if a.polymorphic then relationLookup reg (typeDiscriminator a.getValue)
  else
    match a.modelRef with
    | some (.direct m) => some m
    | some (.byName s) => lookupReg reg s
    | none => none

/-- Look up a declared field descriptor by name (`fields[field]`). -/
def lookupField (fields : List (String × Attrs)) (k : String) : Option Attrs :=
  match fields with
  | [] => none
  | (k2, a) :: rest => if k2 = k then some a else lookupField rest k

/-- One step of `$mergeFields`' loop body: `newFields[key].value = value`
(the key is already known to be declared). -/
def updateVal (l : List (String × Attrs)) (k : String) (w : Val) :
    List (String × Attrs) :=
  l.map (fun e => if e.1 = k then (e.1, e.2.setValue w) else e)

/-- The `_.forEach(data, ...)` loop of `$mergeFields`: every data entry
whose key is a declared field name overwrites that descriptor's value;
unknown keys are ignored. -/
def mergeEntries (fields : List (String × Attrs)) (kvs : List (String × Val)) :
    List (String × Attrs) :=
  kvs.foldl
    (fun acc e => if (fields.map Prod.fst).contains e.1 then updateVal acc e.1 e.2 else acc)
    fields

/-- `Model.$mergeFields` (src/Model.ts lines 261-279): falsy data returns
the defaults untouched; object-like data (plain objects and model
instances, whose own enumerable properties lodash iterates) is merged
entry-wise; arrays and strings iterate with numeric keys which never match
a declared field name, and other primitives are not iterable, so all of
those leave the defaults untouched. -/
def mergeFields (fields : List (String × Attrs)) (data : Option Val) :
    List (String × Attrs) :=
  match data with
  | none => fields
  | some d =>
    if falsyV d then fields
    else
      match d with
      | .vobj kvs => mergeEntries fields kvs
      | .vinst _ props => mergeEntries fields props
      | _ => fields

/-- `field.mutator || this.$self().mutators()[key]`. -/
def mutFor (fieldMut : Option (Val → Val)) (muts : List (String × (Val → Val)))
    (k : String) : Option (Val → Val) :=
  match fieldMut with
  | some f => some f
  | none =>
    match muts with
    | [] => none
    | (k2, f) :: rest => if k2 = k then some f else mutFor none rest k

/-- Instantiate each element of an array value (`field.value.map(v => new model(v))`). -/
def mapInst (recur : Option Val → Option Val) : List Val → Option (List Val)
  | [] => some []
  | x :: xs =>
    match recur (some x) with
    | none => none
    | some y =>
      match mapInst recur xs with
      | none => none
      | some ys => some (y :: ys)

/-- One iteration of the `$initialize` loop (src/Model.ts lines 205-255),
parameterized by the recursive instantiation `recur` used for nested
relations: a `null` merged value assigns `null`; an `Attr` applies the
mutator precedence; relation kinds first hit the numeric degenerate guard
(`_.isNumber(field.value) || _.isNumber(field.value[0])`, where indexing
`undefined` throws), then resolve their target and recurse (single value
for `HasOne`/`BelongsTo`, element-wise for `HasMany`/`HasManyBy`, with a
falsy value collapsing to `null`). -/
def initFieldG (recur : ModelDef → Option Val → Option Val) (reg : Registry)
    (muts : List (String × (Val → Val))) (k : String) (a : Attrs) : Option Val :=
  if a.getValue.isNullV then some Val.vnull
  else
    match a with
    | .attr v m =>
      match mutFor m muts k with
      | some f => some (f v)
      | none => some v
    | _ =>
      let v := a.getValue
      if isNum v then some Val.vnull
      else
        match index0 v with
        | none => none
        | some w =>
          if isNum w then some Val.vnull
          else
            match resolveRelation reg a with
            | none => none
            | some m =>
              match a with
              | .attr _ _ => none
              | .hasOne _ _ _ _ =>
                if truthy v then recur m (some v) else some Val.vnull
              | .belongsTo _ _ _ _ =>
                if truthy v then recur m (some v) else some Val.vnull
              | .hasMany _ _ _ _ =>
                if truthy v then
                  match v with
                  | .varr l =>
                    match mapInst (recur m) l with
                    | none => none
                    | some ys => some (.varr ys)
                  | _ => none
                else some Val.vnull
              | .hasManyBy _ _ _ _ _ =>
                if truthy v then
                  match v with
                  | .varr l =>
                    match mapInst (recur m) l with
                    | none => none
                    | some ys => some (.varr ys)
                  | _ => none
                else some Val.vnull

/-- The full `$initialize` field loop over the merged field map, producing
the instance's property list in declared order. -/
def initFieldsG (recur : ModelDef → Option Val → Option Val) (reg : Registry)
    (muts : List (String × (Val → Val))) :
    List (String × Attrs) → Option (List (String × Val))
  | [] => some []
  | (k, a) :: rest =>
    match initFieldG recur reg muts k a with
    | none => none
    | some v =>
      match initFieldsG recur reg muts rest with
      | none => none
      | some vs => some ((k, v) :: vs)

/-- `new Model(data)` / `$initialize` (src/Model.ts lines 202-256): merge
the data over the field defaults, then assign every field.  The fuel bounds
nested-instantiation depth (JavaScript would overflow the stack on inputs
needing unbounded depth); `none` models a thrown error or fuel exhaustion. -/
def instantiate (reg : Registry) : Nat → ModelDef → Option Val → Option Val
  | 0, _, _ => none
  | n + 1, M, data =>
    match initFieldsG (fun M2 d => instantiate reg n M2 d) reg M.mutators
        (mergeFields M.fields data) with
    | none => none
    | some props => some (.vinst M.entity props)

/-- One field of `$toJson` (src/Model.ts lines 291-307), parameterized by
the recursive serialization `recur` (which, like `model.$toJson()`, only
succeeds on model instances): a falsy property is emitted verbatim;
`HasOne`/`BelongsTo` serialize the nested instance; `HasMany` serializes
element-wise (a non-array truthy value throws); everything else (plain
attributes and `HasManyBy`) is emitted as-is. -/
def serializeField (recur : Val → Option Val) (a : Attrs) (v : Val) : Option Val :=
  if !truthy v then some v
  else
    match a with
    | .hasOne _ _ _ _ => recur v
    | .belongsTo _ _ _ _ => recur v
    | .hasMany _ _ _ _ =>
      match v with
      | .varr l =>
        match mapInst (fun x => x.bind recur) l with
        | none => none
        | some ys => some (.varr ys)
      | _ => none
    | _ => some v

/-- The `_.mapValues(this.$self().fields(), ...)` walk of `$toJson`: one
output entry per declared field, reading the instance property (missing
properties read as `undefined`). -/
def serializeFields (recur : Val → Option Val) (props : List (String × Val)) :
    List (String × Attrs) → Option (List (String × Val))
  | [] => some []
  | (k, a) :: rest =>
    match serializeField recur a (getv props k) with
    | none => none
    | some jv =>
      match serializeFields recur props rest with
      | none => none
      | some js => some ((k, jv) :: js)

/-- `Model.$toJson`: serialize an instance's declared fields.  The
instance's class (`this.$self()`) is recovered from the registry by entity
name; calling `$toJson` on a non-instance is a thrown error (`none`).  The
fuel bounds recursion depth. -/
def toJson (reg : Registry) : Nat → Val → Option Val
  | 0, _ => none
  | n + 1, v =>
    match v with
    | .vinst e props =>
      match lookupReg reg e with
      | none => none
      | some M =>
        match serializeFields (fun x => toJson reg n x) props M.fields with
        | none => none
        | some kvs => some (.vobj kvs)
    | _ => none

/-- One iteration of the `_.forEach(record, ...)` loop inside
`attachForeignKeys`: an entry whose field is undeclared, a plain attribute,
or a non-`BelongsTo` relation does nothing; a `BelongsTo` entry writes its
value under the descriptor's foreign key unless the accumulated record
already holds a truthy value there (`if (newRecord[key]) return`). -/
def attachStep (fields : List (String × Attrs)) (newR : List (String × Val))
    (e : String × Val) : List (String × Val) :=
  match lookupField fields e.1 with
  | none => newR
  | some a =>
    match a with
    | .belongsTo _ fk _ _ =>
      if truthy (getv newR fk) then newR else setv newR fk e.2
    | _ => newR

/-- The per-record body of `Model.attachForeignKeys` (src/Model.ts lines
149-175): fold the loop over the record's own entries, starting from a copy
of the record. -/
def attachRecord (fields : List (String × Attrs)) (r : List (String × Val)) :
    List (String × Val) :=
  r.foldl (attachStep fields) r

/-- `Model.attachForeignKeys` (src/Model.ts lines 146-176): repair every
record of a bucket against the bucket's model. -/
def attachForeignKeys (records : List (String × List (String × Val)))
    (M : ModelDef) : List (String × List (String × Val)) :=
  records.map (fun e => (e.1, attachRecord M.fields e.2))

/-- Normalized data: entity-type name → primary-key string → flat record. -/
abbrev NormData : Type := List (String × List (String × List (String × Val)))

/-- A JavaScript object key for a primary-key value (numbers coerce to
their decimal string). -/
def pkKey : Val → Option String
  | .vnum n => some (toString n)
  | .vstr s => some s
  | _ => none

/-- Shallow merge of a new flat record over an existing one (merge by
identity, later keys winning). -/
def recMerge (old new : List (String × Val)) : List (String × Val) :=
  new.foldl (fun acc e => setv acc e.1 e.2) old

/-- Insert a flat record into a bucket, merging with an existing record of
the same key. -/
def addRec (recs : List (String × List (String × Val))) (pk : String)
    (r : List (String × Val)) : List (String × List (String × Val)) :=
  match recs with
  | [] => [(pk, r)]
  | (p, old) :: rest =>
    if p = pk then (p, recMerge old r) :: rest else (p, old) :: addRec rest pk r

/-- Insert a flat record into normalized data under an entity name. -/
def addRecord (nd : NormData) (entity pk : String) (r : List (String × Val)) :
    NormData :=
  match nd with
  | [] => [(entity, [(pk, r)])]
  | (e, recs) :: rest =>
    if e = entity then (e, addRec recs pk r) :: rest
    else (e, recs) :: addRecord rest entity pk r

/-- Merge two normalized-data collections record by record. -/
def mergeND (nd nd2 : NormData) : NormData :=
  nd2.foldl
    (fun acc b => b.2.foldl (fun acc2 pr => addRecord acc2 b.1 pr.1 pr.2) acc)
    nd

/-- Modelled from the spec: list-relation handling of the external
graph-normalization primitive (`Data.normalize` with the `Schema` of
section 4.3, neither of which is in the given sources).  Each embedded
object element is flattened recursively and replaced by its primary-key
value; scalar elements are already ids and stay as they are. -/
def normMany (recur : ModelDef → Val → Option NormData) (reg : Registry)
    (a : Attrs) : List Val → Option (List Val × NormData)
  | [] => some ([], [])
  | w :: rest =>
    match normMany recur reg a rest with
    | none => none
    | some (ids, nd) =>
      match w with
      | .vobj kvs =>
        match resolveRelation reg (a.setValue w) with
        | none => none
        | some t =>
          match recur t w with
          | none => none
          | some nd2 => some (getv kvs t.primaryKey :: ids, mergeND nd2 nd)
      | _ => some (w :: ids, nd)

/-- Modelled from the spec: per-field flattening of one raw record by the
external graph-normalization primitive (sections 4.3 and 6).  Plain
attributes and undeclared keys pass through; a single-entity relation whose
value is an embedded object is flattened recursively and replaced by the
target's primary-key value (the target chosen per-record by the
discriminator for polymorphic relations); list relations flatten
element-wise. -/
def normEntries (recur : ModelDef → Val → Option NormData) (reg : Registry)
    (fields : List (String × Attrs)) :
    List (String × Val) → Option (List (String × Val) × NormData)
  | [] => some ([], [])
  | (f, w) :: rest =>
    match normEntries recur reg fields rest with
    | none => none
    | some (flat, nd) =>
      match lookupField fields f with
      | none => some ((f, w) :: flat, nd)
      | some a =>
        match a with
        | .attr _ _ => some ((f, w) :: flat, nd)
        | .hasOne _ _ _ _ =>
          match w with
          | .vobj kvs =>
            match resolveRelation reg (a.setValue w) with
            | none => none
            | some t =>
              match recur t w with
              | none => none
              | some nd2 => some ((f, getv kvs t.primaryKey) :: flat, mergeND nd2 nd)
          | _ => some ((f, w) :: flat, nd)
        | .belongsTo _ _ _ _ =>
          match w with
          | .vobj kvs =>
            match resolveRelation reg (a.setValue w) with
            | none => none
            | some t =>
              match recur t w with
              | none => none
              | some nd2 => some ((f, getv kvs t.primaryKey) :: flat, mergeND nd2 nd)
          | _ => some ((f, w) :: flat, nd)
        | .hasMany _ _ _ _ =>
          match w with
          | .varr elems =>
            match normMany recur reg a elems with
            | none => none
            | some (ids, nd2) => some ((f, .varr ids) :: flat, mergeND nd2 nd)
          | _ => some ((f, w) :: flat, nd)
        | .hasManyBy _ _ _ _ _ =>
          match w with
          | .varr elems =>
            match normMany recur reg a elems with
            | none => none
            | some (ids, nd2) => some ((f, .varr ids) :: flat, mergeND nd2 nd)
          | _ => some ((f, w) :: flat, nd)

/-- Modelled from the spec: the external graph-normalization primitive
`Data.normalize(data, schema)` (sections 4.4 step 3 and 6; the file
src/Data.ts is not among the given sources).  An array input normalizes
element-wise against the collection schema; an object input is flattened
per-field and filed into its entity's bucket keyed by its primary-key
value.  The fuel bounds nesting depth. -/
def dataNormalize (reg : Registry) : Nat → ModelDef → Val → Option NormData
  | 0, _, _ => none
  | n + 1, M, d =>
    match d with
    | .varr l =>
      (l.foldl
        (fun acc x =>
          match acc with
          | none => none
          | some nd =>
            match dataNormalize reg n M x with
            | none => none
            | some nd2 => some (mergeND nd nd2))
        (some []))
    | .vobj kvs =>
      match normEntries (fun t w => dataNormalize reg n t w) reg M.fields kvs with
      | none => none
      | some (flat, nd) =>
        match pkKey (getv kvs M.primaryKey) with
        | none => none
        | some pk => some (addRecord nd M.entity pk flat)
    | _ => none

/-- The `_.mapValues` post-processing step of `Model.normalize`: look each
bucket's model up by entity name and attach missing foreign keys; an
unknown entity name is a thrown error. -/
def attachAll (reg : Registry) : NormData → Option NormData
  | [] => some []
  | (e, recs) :: rest =>
    match lookupReg reg e with
    | none => none
    | some m =>
      match attachAll reg rest with
      | none => none
      | some out => some ((e, attachForeignKeys recs m) :: out)

/-- `Model.normalize` (src/Model.ts lines 132-141): run the external
normalization primitive, then post-process every bucket with
`attachForeignKeys` against that bucket's own model. -/
def normalize (reg : Registry) (n : Nat) (M : ModelDef) (d : Val) : Option NormData :=
  match dataNormalize reg n M d with
  | none => none
  | some nd => attachAll reg nd

/-- A store of field-descriptor objects, modelling the JavaScript heap
cells that `static fields()` allocates and that `$mergeFields` mutates in
place; a cell's address is its index. -/
structure FStore where
  cells : List Attrs

/-- Read a descriptor cell. -/
def readCell (st : FStore) (i : Nat) : Option Attrs := st.cells.get? i

/-- Overwrite a descriptor cell. -/
def writeCell (st : FStore) (i : Nat) (a : Attrs) : FStore := ⟨st.cells.set i a⟩

/-- Consecutive fresh addresses for a field list, starting at `base`. -/
def addrMap (base : Nat) : List (String × Attrs) → List (String × Nat)
  | [] => []
  | (k, _) :: rest => (k, base) :: addrMap (base + 1) rest

/-- One call of `static fields()`: it builds a fresh descriptor object per
field (the factory helpers each return a new object), so it allocates fresh
cells and returns the name-to-address map. -/
def fieldsRun (M : ModelDef) (st : FStore) : FStore × List (String × Nat) :=
  (⟨st.cells ++ M.fields.map Prod.snd⟩, addrMap st.cells.length M.fields)

/-- Address lookup in a field-map's name-to-address table. -/
def lookupAddr (fm : List (String × Nat)) (k : String) : Option Nat :=
  match fm with
  | [] => none
  | (k2, i) :: rest => if k2 = k then some i else lookupAddr rest k

/-- `$mergeFields` on the heap model: `{...fields}` copies the
name-to-address map (the descriptors themselves stay shared), then each
data entry naming a declared field overwrites that descriptor cell's
`value` in place. -/
def mergeRunEntries (fm : List (String × Nat)) (st : FStore)
    (kvs : List (String × Val)) : FStore :=
  kvs.foldl
    (fun acc e =>
      match lookupAddr fm e.1 with
      | none => acc
      | some i =>
        match readCell acc i with
        | none => acc
        | some a => writeCell acc i (a.setValue e.2))
    st

/-- `$mergeFields` on the heap model, top level: falsy data leaves the
store untouched; object-like data is merged entry-wise. -/
def mergeRun (st : FStore) (fm : List (String × Nat)) (data : Option Val) : FStore :=
  match data with
  | none => st
  | some d =>
    if falsyV d then st
    else
      match d with
      | .vobj kvs => mergeRunEntries fm st kvs
      | .vinst _ props => mergeRunEntries fm st props
      | _ => st

/-- Observe a field map: read every named cell back from the store. -/
def readFieldMap (st : FStore) : List (String × Nat) → Option (List (String × Attrs))
  | [] => some []
  | (k, i) :: rest =>
    match readCell st i with
    | none => none
    | some a =>
      match readFieldMap st rest with
      | none => none
      | some out => some ((k, a) :: out)

/-! Basic lemmas about the record operations. -/

theorem falsy_vundefined : falsyV Val.vundefined = true := rfl

theorem truthy_getv_hasKey (r : List (String × Val)) (k : String)
    (h : truthy (getv r k) = true) : hasKey r k = true := by
  induction r with
  | nil => simp [getv, truthy, falsyV] at h
  | cons e rest ih =>
    obtain ⟨k2, v⟩ := e
    by_cases hk : k2 = k
    · simp [hasKey, hk]
    · simp only [getv, hasKey, hk, if_false] at h ⊢
      simp [hk, ih h]

theorem hasKey_append (a b : List (String × Val)) (k : String) :
    hasKey (a ++ b) k = (hasKey a k || hasKey b k) := by
  induction a with
  | nil => simp [hasKey]
  | cons e rest ih =>
    obtain ⟨k1, v1⟩ := e
    simp [hasKey, ih, Bool.or_assoc]

theorem hasKey_map_upd (r : List (String × Val)) (k k2 : String) (v : Val) :
    hasKey (r.map (fun e => if e.1 = k then (e.1, v) else e)) k2 = hasKey r k2 := by
  induction r with
  | nil => simp [hasKey]
  | cons e rest ih =>
    obtain ⟨k1, v1⟩ := e
    by_cases hk : k1 = k
    · rw [List.map_cons, show (if (k1, v1).1 = k then ((k1, v1).1, v) else (k1, v1)) = (k1, v) from by rw [if_pos hk]]
      simp [hasKey, ih]
    · rw [List.map_cons, show (if (k1, v1).1 = k then ((k1, v1).1, v) else (k1, v1)) = (k1, v1) from by rw [if_neg hk]]
      simp [hasKey, ih]

theorem hasKey_setv (r : List (String × Val)) (k k2 : String) (v : Val) :
    hasKey (setv r k v) k2 = (hasKey r k2 || k == k2) := by
  unfold setv
  by_cases h : hasKey r k
  · simp only [h, if_true, hasKey_map_upd]
    by_cases hk : k = k2
    · subst hk; simp [h]
    · simp [hk]
  · simp only [h, Bool.false_eq_true, if_false, hasKey_append, hasKey]
    simp

theorem getv_map_upd_self (r : List (String × Val)) (k : String) (v : Val)
    (h : hasKey r k = true) :
    getv (r.map (fun e => if e.1 = k then (e.1, v) else e)) k = v := by
  induction r with
  | nil => simp [hasKey] at h
  | cons e rest ih =>
    obtain ⟨k1, v1⟩ := e
    by_cases hk : k1 = k
    · rw [List.map_cons, show (if (k1, v1).1 = k then ((k1, v1).1, v) else (k1, v1)) = (k1, v) from by rw [if_pos hk]]
      simp [getv, hk]
    · rw [List.map_cons, show (if (k1, v1).1 = k then ((k1, v1).1, v) else (k1, v1)) = (k1, v1) from by rw [if_neg hk]]
      simp only [hasKey] at h
      have hb : (k1 == k) = false := by simpa using hk
      simp only [hb, Bool.false_or] at h
      simp [getv, hk, ih h]

theorem getv_map_upd_ne (r : List (String × Val)) (k k2 : String) (v : Val)
    (h : k2 ≠ k) :
    getv (r.map (fun e => if e.1 = k then (e.1, v) else e)) k2 = getv r k2 := by
  induction r with
  | nil => simp [getv]
  | cons e rest ih =>
    obtain ⟨k1, v1⟩ := e
    by_cases hk : k1 = k
    · have hne : k1 ≠ k2 := by rw [hk]; exact fun hh => h hh.symm
      rw [List.map_cons, show (if (k1, v1).1 = k then ((k1, v1).1, v) else (k1, v1)) = (k1, v) from by rw [if_pos hk]]
      simp [getv, hne, ih]
    · rw [List.map_cons, show (if (k1, v1).1 = k then ((k1, v1).1, v) else (k1, v1)) = (k1, v1) from by rw [if_neg hk]]
      by_cases hk2 : k1 = k2 <;> simp [getv, hk2, ih]

theorem getv_append_ne (r : List (String × Val)) (k k2 : String) (v : Val)
    (h : k2 ≠ k) : getv (r ++ [(k, v)]) k2 = getv r k2 := by
  induction r with
  | nil =>
    simp only [List.nil_append, getv]
    rw [if_neg (fun hh => h hh.symm)]
  | cons e rest ih =>
    obtain ⟨k1, v1⟩ := e
    by_cases hk2 : k1 = k2 <;> simp [getv, hk2, ih]

theorem getv_append_self (r : List (String × Val)) (k : String) (v : Val)
    (h : hasKey r k = false) : getv (r ++ [(k, v)]) k = v := by
  induction r with
  | nil => simp [getv]
  | cons e rest ih =>
    obtain ⟨k1, v1⟩ := e
    simp only [hasKey, Bool.or_eq_false_iff, beq_eq_false_iff_ne, ne_eq] at h
    simp [getv, h.1, ih h.2]

theorem getv_setv_self (r : List (String × Val)) (k : String) (v : Val) :
    getv (setv r k v) k = v := by
  unfold setv
  by_cases h : hasKey r k
  · simp [h, getv_map_upd_self r k v h]
  · simp only [h, Bool.false_eq_true, if_false]
    exact getv_append_self r k v (by simpa using h)

theorem getv_setv_ne (r : List (String × Val)) (k k2 : String) (v : Val)
    (h : k2 ≠ k) : getv (setv r k v) k2 = getv r k2 := by
  unfold setv
  by_cases hh : hasKey r k
  · simp [hh, getv_map_upd_ne r k k2 v h]
  · simp [hh, getv_append_ne r k k2 v h]

theorem hasKey_mem (r : List (String × Val)) (k : String)
    (h : hasKey r k = true) : ∃ v, (k, v) ∈ r := by
  induction r with
  | nil => simp [hasKey] at h
  | cons e rest ih =>
    by_cases hk : e.1 = k
    · exact ⟨e.2, by rw [← hk]; exact List.mem_cons_self _ _⟩
    · simp only [hasKey, beq_eq_false_iff_ne.mpr hk, Bool.false_or] at h
      obtain ⟨v, hv⟩ := ih h
      exact ⟨v, List.mem_cons_of_mem _ hv⟩

/-! Concrete fixtures used by witnesses and counterexamples. -/

/-- A `Post` model with a `BelongsTo "User"` relation under field `author`,
foreign key `userId` (the spec's second concrete scenario). -/
def postB : ModelDef :=
  .mk "Post" "id"
    [("id", .attr .vnull none), ("title", .attr (.vstr "") none),
     ("author", .belongsTo (.byName "User") "userId" .vnull false)] []

/-- A plain `User` model. -/
def userB : ModelDef :=
  .mk "User" "id" [("id", .attr .vnull none), ("name", .attr (.vstr "") none)] []

/-- Registry holding `userB` and `postB`. -/
def regB : Registry := [("User", userB), ("Post", postB)]

/-- A model with a `HasOne` relation, for the degenerate-scalar witness. -/
def oneM : ModelDef :=
  .mk "A" "id"
    [("id", .attr .vnull none), ("b", .hasOne (.byName "B") "aId" .vnull false)] []

/-- The `HasOne` target of `oneM`. -/
def bM : ModelDef := .mk "B" "id" [("id", .attr .vnull none)] []

/-- Registry holding `oneM` and `bM`. -/
def regC : Registry := [("A", oneM), ("B", bM)]

/-! C3: relation resolution. -/

/-- C3: for a polymorphic descriptor, `resolveRelation` is the container
lookup of the `type` discriminator read from the descriptor's current
value, regardless of the statically declared target; for a non-polymorphic
descriptor with a string target it is the container lookup of that string;
for a non-polymorphic descriptor with a concrete class target it is that
class itself. -/
theorem claim_C3_resolve_relation (reg : Registry) (a : Attrs) :
    (a.polymorphic = true →
      resolveRelation reg a = relationLookup reg (typeDiscriminator a.getValue))
    ∧ (a.polymorphic = false → ∀ s, a.modelRef = some (.byName s) →
      resolveRelation reg a = lookupReg reg s)
    ∧ (a.polymorphic = false → ∀ m, a.modelRef = some (.direct m) →
      resolveRelation reg a = some m) := by
  refine ⟨fun hp => by simp [resolveRelation, hp], fun hp s hs => ?_, fun hp m hm => ?_⟩
  · simp [resolveRelation, hp, hs]
  · simp [resolveRelation, hp, hm]

/-- Witness for C3: a polymorphic `hasOne` statically targeting `"User"`
but whose value carries discriminator `"Post"` resolves to the registry's
`Post` model; a string target resolves by lookup; a direct target is
returned as-is. -/
theorem claim_C3_witness :
    (Attrs.polymorphic (.hasOne (.byName "User") "fk"
        (.vobj [("type", .vstr "Post")]) true) = true
      ∧ resolveRelation regB
          (.hasOne (.byName "User") "fk" (.vobj [("type", .vstr "Post")]) true)
        = some postB)
    ∧ resolveRelation regB (.belongsTo (.byName "User") "fk" .vnull false)
        = some userB
    ∧ resolveRelation regB (.hasMany (.direct bM) "fk" .vnull false) = some bM := by
  refine ⟨⟨rfl, ?_⟩, ?_, ?_⟩
  · have h := (claim_C3_resolve_relation regB
      (.hasOne (.byName "User") "fk" (.vobj [("type", .vstr "Post")]) true)).1 rfl
    rw [h]; rfl
  · have h := ((claim_C3_resolve_relation regB
      (.belongsTo (.byName "User") "fk" .vnull false)).2.1 rfl "User" rfl)
    rw [h]; rfl
  · exact (claim_C3_resolve_relation regB
      (.hasMany (.direct bM) "fk" .vnull false)).2.2 rfl bM rfl

/-! C2: the degenerate numeric guard. -/

/-- C2: for every relation field, if the merged value is itself a number,
or its index-0 element is a number, instantiation assigns `null` to the
property instead of constructing a nested instance. -/
theorem claim_C2_numeric_guard (recur : ModelDef → Option Val → Option Val)
    (reg : Registry) (muts : List (String × (Val → Val))) (k : String)
    (a : Attrs) (hrel : a.isRelation = true) :
    (isNum a.getValue = true → initFieldG recur reg muts k a = some Val.vnull)
    ∧ (∀ w, index0 a.getValue = some w → isNum w = true →
        initFieldG recur reg muts k a = some Val.vnull) := by
  constructor
  · intro hnum
    cases a with
    | attr v m => simp [Attrs.isRelation] at hrel
    | hasOne r fk v p =>
      cases v <;> simp [isNum, Attrs.getValue] at hnum <;>
        simp [initFieldG, Attrs.getValue, Val.isNullV, isNum]
    | belongsTo r fk v p =>
      cases v <;> simp [isNum, Attrs.getValue] at hnum <;>
        simp [initFieldG, Attrs.getValue, Val.isNullV, isNum]
    | hasMany r fk v p =>
      cases v <;> simp [isNum, Attrs.getValue] at hnum <;>
        simp [initFieldG, Attrs.getValue, Val.isNullV, isNum]
    | hasManyBy r fk ok v p =>
      cases v <;> simp [isNum, Attrs.getValue] at hnum <;>
        simp [initFieldG, Attrs.getValue, Val.isNullV, isNum]
  · intro w hw hnw
    have hnn : a.getValue.isNullV = false := by
      cases hv : a.getValue <;> simp [Val.isNullV] <;> rw [hv] at hw <;> simp [index0] at hw
    cases a with
    | attr v m => simp [Attrs.isRelation] at hrel
    | hasOne r fk v p =>
      simp only [Attrs.getValue] at hnn hw
      by_cases hnum : isNum v = true
      · simp [initFieldG, Attrs.getValue, hnn, hnum]
      · simp [initFieldG, Attrs.getValue, hnn, hnum, hw, hnw]
    | belongsTo r fk v p =>
      simp only [Attrs.getValue] at hnn hw
      by_cases hnum : isNum v = true
      · simp [initFieldG, Attrs.getValue, hnn, hnum]
      · simp [initFieldG, Attrs.getValue, hnn, hnum, hw, hnw]
    | hasMany r fk v p =>
      simp only [Attrs.getValue] at hnn hw
      by_cases hnum : isNum v = true
      · simp [initFieldG, Attrs.getValue, hnn, hnum]
      · simp [initFieldG, Attrs.getValue, hnn, hnum, hw, hnw]
    | hasManyBy r fk ok v p =>
      simp only [Attrs.getValue] at hnn hw
      by_cases hnum : isNum v = true
      · simp [initFieldG, Attrs.getValue, hnn, hnum]
      · simp [initFieldG, Attrs.getValue, hnn, hnum, hw, hnw]

/-- Witness for C2: a `HasOne` field whose merged raw value is the bare
number `5` initializes to `null`, and the full instantiation of a record
with such a field carries `null` at that property. -/
theorem claim_C2_witness :
    Attrs.isRelation (.hasOne (.byName "B") "aId" (.vnum 5) false) = true
    ∧ isNum (Attrs.getValue (.hasOne (.byName "B") "aId" (.vnum 5) false)) = true
    ∧ initFieldG (fun M2 d => instantiate regC 2 M2 d) regC [] "b"
        (.hasOne (.byName "B") "aId" (.vnum 5) false) = some Val.vnull
    ∧ instantiate regC 3 oneM (some (.vobj [("id", .vnum 1), ("b", .vnum 5)]))
      = some (.vinst "A" [("id", .vnum 1), ("b", .vnull)]) := by
  refine ⟨rfl, rfl, ?_, rfl⟩
  exact (claim_C2_numeric_guard (fun M2 d => instantiate regC 2 M2 d) regC [] "b"
    (.hasOne (.byName "B") "aId" (.vnum 5) false) rfl).1 rfl

/-! C6: null short-circuit and mutator precedence. -/

/-- C6: a field whose merged value is `null` is assigned `null` whatever
its kind, mutator or relation; an `Attr` field with a non-null value is
assigned its own mutator's result when it carries one, else the entity
mutator registered under the field name, else the value unchanged. -/
theorem claim_C6_null_and_mutators (recur : ModelDef → Option Val → Option Val)
    (reg : Registry) (muts : List (String × (Val → Val))) (k : String) :
    (∀ a : Attrs, a.getValue.isNullV = true →
      initFieldG recur reg muts k a = some Val.vnull)
    ∧ (∀ (v : Val) (f : Val → Val), v.isNullV = false →
      initFieldG recur reg muts k (.attr v (some f)) = some (f v))
    ∧ (∀ (v : Val) (f : Val → Val), v.isNullV = false →
      mutFor none muts k = some f →
      initFieldG recur reg muts k (.attr v none) = some (f v))
    ∧ (∀ v : Val, v.isNullV = false → mutFor none muts k = none →
      initFieldG recur reg muts k (.attr v none) = some v) := by
  refine ⟨fun a ha => ?_, fun v f hv => ?_, fun v f hv hm => ?_, fun v hv hm => ?_⟩
  · simp [initFieldG, ha]
  · simp [initFieldG, Attrs.getValue, hv, mutFor]
  · simp [initFieldG, Attrs.getValue, hv, mutFor, hm]
  · simp [initFieldG, Attrs.getValue, hv, mutFor, hm]

/-- Witness for C6 at concrete inputs: a `belongsTo` with a mutator-free
payload of `null` assigns `null`; an `Attr` value `1` with its own mutator
(+1) assigns `2` even when an entity mutator (+10) is registered; with no
field mutator the entity mutator applies; with neither the value passes
through. -/
theorem claim_C6_witness :
    initFieldG (fun _ _ => none) [] [("x", fun v => v)] "x"
        (.belongsTo (.byName "User") "userId" .vnull false) = some Val.vnull
    ∧ initFieldG (fun _ _ => none) []
        [("x", fun v => match v with | .vnum n => .vnum (n + 10) | w => w)] "x"
        (.attr (.vnum 1) (some (fun v => match v with | .vnum n => .vnum (n + 1) | w => w)))
      = some (.vnum 2)
    ∧ initFieldG (fun _ _ => none) []
        [("x", fun v => match v with | .vnum n => .vnum (n + 10) | w => w)] "x"
        (.attr (.vnum 1) none) = some (.vnum 11)
    ∧ initFieldG (fun _ _ => none) [] [] "x" (.attr (.vnum 1) none) = some (.vnum 1) := by
  refine ⟨?_, ?_, ?_, ?_⟩
  · exact (claim_C6_null_and_mutators (fun _ _ => none) [] [("x", fun v => v)] "x").1
      (.belongsTo (.byName "User") "userId" .vnull false) rfl
  · exact (claim_C6_null_and_mutators (fun _ _ => none) []
      [("x", fun v => match v with | .vnum n => .vnum (n + 10) | w => w)] "x").2.1
      (.vnum 1) (fun v => match v with | .vnum n => .vnum (n + 1) | w => w) rfl
  · exact (claim_C6_null_and_mutators (fun _ _ => none) []
      [("x", fun v => match v with | .vnum n => .vnum (n + 10) | w => w)] "x").2.2.1
      (.vnum 1) (fun v => match v with | .vnum n => .vnum (n + 10) | w => w) rfl rfl
  · exact (claim_C6_null_and_mutators (fun _ _ => none) [] [] "x").2.2.2
      (.vnum 1) rfl rfl

/-! C7: serialization branches. -/

/-- C7: `$toJson` emits, per declared field: the property verbatim when it
is falsy; the recursive serialization of the nested value for `HasOne` and
`BelongsTo`; the element-wise recursive serialization for `HasMany`; and
the property as-is for plain attributes and `HasManyBy`. -/
theorem claim_C7_tojson_branches (reg : Registry) (n : Nat) (v : Val) :
    (∀ a : Attrs, falsyV v = true → serializeField (toJson reg n) a v = some v)
    ∧ (truthy v = true → ∀ (mref : ModelRef) (fk : String) (dv : Val) (po : Bool),
        serializeField (toJson reg n) (.hasOne mref fk dv po) v = toJson reg n v
      ∧ serializeField (toJson reg n) (.belongsTo mref fk dv po) v = toJson reg n v)
    ∧ (truthy v = true → ∀ (l : List Val) (mref : ModelRef) (fk : String)
        (dv : Val) (po : Bool), v = .varr l →
        serializeField (toJson reg n) (.hasMany mref fk dv po) v
          = (mapInst (fun x => x.bind (toJson reg n)) l).map Val.varr)
    ∧ (truthy v = true → ∀ (dv : Val) (m : Option (Val → Val)),
        serializeField (toJson reg n) (.attr dv m) v = some v)
    ∧ (truthy v = true → ∀ (mref : ModelRef) (fk ok : String) (dv : Val) (po : Bool),
        serializeField (toJson reg n) (.hasManyBy mref fk ok dv po) v = some v) := by
  refine ⟨fun a hf => ?_, fun ht mref fk dv po => ?_, fun ht l mref fk dv po hv => ?_,
    fun ht dv m => ?_, fun ht mref fk ok dv po => ?_⟩
  · have : truthy v = false := by simp [truthy, hf]
    cases a <;> simp [serializeField, this]
  · constructor <;> simp [serializeField, ht]
  · subst hv
    simp only [serializeField, ht, Bool.not_true, Bool.false_eq_true, if_false]
    cases mapInst (fun x => x.bind (toJson reg n)) l <;> simp
  · simp [serializeField, ht]
  · simp [serializeField, ht]

/-- Witness for C7: a falsy number `0` and `null` pass through verbatim; a
nested instance under `belongsTo` serializes recursively; a `hasMany` list
serializes element-wise; a truthy plain attribute and a `hasManyBy` value
pass through as-is. -/
theorem claim_C7_witness :
    serializeField (toJson regB 2) (.attr .vnull none) (.vnum 0) = some (.vnum 0)
    ∧ serializeField (toJson regB 2) (.belongsTo (.byName "User") "userId" .vnull false)
        Val.vnull = some Val.vnull
    ∧ serializeField (toJson regB 2) (.belongsTo (.byName "User") "userId" .vnull false)
        (.vinst "User" [("id", .vnum 1), ("name", .vstr "Ada")])
      = some (.vobj [("id", .vnum 1), ("name", .vstr "Ada")])
    ∧ serializeField (toJson regB 2) (.hasMany (.byName "User") "userId" .vnull false)
        (.varr [.vinst "User" [("id", .vnum 1), ("name", .vstr "Ada")]])
      = some (.varr [.vobj [("id", .vnum 1), ("name", .vstr "Ada")]])
    ∧ serializeField (toJson regB 2) (.attr .vnull none) (.vnum 7) = some (.vnum 7)
    ∧ serializeField (toJson regB 2) (.hasManyBy (.byName "User") "userId" "id" .vnull false)
        (.varr [.vinst "User" [("id", .vnum 1), ("name", .vstr "Ada")]])
      = some (.varr [.vinst "User" [("id", .vnum 1), ("name", .vstr "Ada")]]) := by
  refine ⟨?_, ?_, ?_, ?_, ?_, ?_⟩
  · exact (claim_C7_tojson_branches regB 2 (.vnum 0)).1 (.attr .vnull none) rfl
  · exact (claim_C7_tojson_branches regB 2 .vnull).1
      (.belongsTo (.byName "User") "userId" .vnull false) rfl
  · have h := ((claim_C7_tojson_branches regB 2
      (.vinst "User" [("id", .vnum 1), ("name", .vstr "Ada")])).2.1 rfl
      (.byName "User") "userId" .vnull false).2
    rw [h]; rfl
  · have h := (claim_C7_tojson_branches regB 2
      (.varr [.vinst "User" [("id", .vnum 1), ("name", .vstr "Ada")]])).2.2.1 rfl
      [.vinst "User" [("id", .vnum 1), ("name", .vstr "Ada")]]
      (.byName "User") "userId" .vnull false rfl
    rw [h]; rfl
  · exact (claim_C7_tojson_branches regB 2 (.vnum 7)).2.2.2.1 rfl .vnull none
  · exact (claim_C7_tojson_branches regB 2
      (.varr [.vinst "User" [("id", .vnum 1), ("name", .vstr "Ada")]])).2.2.2.2 rfl
      (.byName "User") "userId" "id" .vnull false

/-! C8: the foreign-key guard is a truthiness test, not a presence test. -/

/-- A generic foldl invariant. -/
theorem foldl_inv {α β : Type _} (P : α → Prop) (f : α → β → α) :
    ∀ (l : List β) (init : α), P init →
      (∀ acc b, b ∈ l → P acc → P (f acc b)) → P (l.foldl f init) := by
  intro l
  induction l with
  | nil => intro init h _; exact h
  | cons b rest ih =>
    intro init h hstep
    exact ih (f init b) (hstep init b (List.mem_cons_self _ _) h)
      (fun acc b2 hb2 => hstep acc b2 (List.mem_cons_of_mem _ hb2))

/-- Fields for the C8 counterexample: a `BelongsTo` under `author` with
foreign key `userId`, and `userId` itself a plain attribute. -/
def c8fields : List (String × Attrs) :=
  [("author", .belongsTo (.byName "User") "userId" .vnull false),
   ("userId", .attr .vnull none)]

/-- Counterexample to C8 as stated: the record `{author: 1, userId: 0}`
already contains a value under the foreign key `userId`, yet
`attachForeignKeys` overwrites it with `1`, because the source guard
`if (newRecord[key])` tests truthiness, not presence. -/
theorem claim_C8_counterexample :
    hasKey [("author", Val.vnum 1), ("userId", Val.vnum 0)] "userId" = true
    ∧ getv [("author", Val.vnum 1), ("userId", Val.vnum 0)] "userId" = .vnum 0
    ∧ getv (attachRecord c8fields [("author", .vnum 1), ("userId", .vnum 0)]) "userId"
      = .vnum 1 :=
  ⟨rfl, rfl, rfl⟩

/-- C8 amended: `attachForeignKeys` leaves the value at a foreign key `fk`
unchanged whenever the record holds a truthy value there; consequently any
change at `fk` means the original value was falsy or absent. -/
theorem claim_C8_truthy_frame (fields : List (String × Attrs))
    (r : List (String × Val)) (fk : String) :
    (truthy (getv r fk) = true → getv (attachRecord fields r) fk = getv r fk)
    ∧ (getv (attachRecord fields r) fk ≠ getv r fk → truthy (getv r fk) = false) := by
  have main : truthy (getv r fk) = true → getv (attachRecord fields r) fk = getv r fk := by
    intro ht
    unfold attachRecord
    refine foldl_inv (fun acc => getv acc fk = getv r fk) _ r r rfl ?_
    intro acc b _ hacc
    unfold attachStep
    cases hl : lookupField fields b.1 with
    | none => exact hacc
    | some a =>
      cases a with
      | belongsTo mref fk2 dv po =>
        by_cases hg : truthy (getv acc fk2) = true
        · simpa [hg] using hacc
        · by_cases hfk : fk2 = fk
          · subst hfk; rw [hacc] at hg; exact absurd ht hg
          · simp only [hg, Bool.false_eq_true, if_false]
            rw [getv_setv_ne acc fk2 fk b.2 (fun hh => hfk hh.symm)]
            exact hacc
      | attr dv m => exact hacc
      | hasOne mref fk2 dv po => exact hacc
      | hasMany mref fk2 dv po => exact hacc
      | hasManyBy mref fk2 ok dv po => exact hacc
  refine ⟨main, fun hne => ?_⟩
  by_contra hcon
  exact hne (main (by simpa using hcon))

/-- Witness for C8 amended: a truthy `userId: 2` survives
`attachForeignKeys` unchanged next to an `author` value `1`. -/
theorem claim_C8_witness :
    truthy (getv [("author", Val.vnum 1), ("userId", Val.vnum 2)] "userId") = true
    ∧ getv (attachRecord c8fields [("author", .vnum 1), ("userId", .vnum 2)]) "userId"
      = getv [("author", Val.vnum 1), ("userId", Val.vnum 2)] "userId" :=
  ⟨rfl, (claim_C8_truthy_frame c8fields
    [("author", .vnum 1), ("userId", .vnum 2)] "userId").1 rfl⟩

/-! C4: instantiation produces exactly the declared field set. -/

theorem updateVal_keys (l : List (String × Attrs)) (k : String) (w : Val) :
    (updateVal l k w).map Prod.fst = l.map Prod.fst := by
  induction l with
  | nil => rfl
  | cons e rest ih =>
    obtain ⟨k1, a1⟩ := e
    by_cases hk : k1 = k
    · simp only [updateVal] at ih ⊢
      rw [List.map_cons, show (if (k1, a1).1 = k then ((k1, a1).1, Attrs.setValue (k1, a1).2 w) else (k1, a1)) = (k1, a1.setValue w) from by rw [if_pos hk]]
      simp [ih]
    · simp only [updateVal] at ih ⊢
      rw [List.map_cons, show (if (k1, a1).1 = k then ((k1, a1).1, Attrs.setValue (k1, a1).2 w) else (k1, a1)) = (k1, a1) from by rw [if_neg hk]]
      simp [ih]

theorem mergeEntries_keys (fields : List (String × Attrs))
    (kvs : List (String × Val)) :
    (mergeEntries fields kvs).map Prod.fst = fields.map Prod.fst := by
  unfold mergeEntries
  refine foldl_inv (fun acc => acc.map Prod.fst = fields.map Prod.fst) _ kvs fields rfl ?_
  intro acc b _ hacc
  by_cases hb : (fields.map Prod.fst).contains b.1 = true
  · rw [if_pos hb, updateVal_keys, hacc]
  · rw [if_neg hb]; exact hacc

theorem mergeFields_keys (fields : List (String × Attrs)) (data : Option Val) :
    (mergeFields fields data).map Prod.fst = fields.map Prod.fst := by
  unfold mergeFields
  cases data with
  | none => rfl
  | some d =>
    by_cases hf : falsyV d = true
    · simp [hf]
    · cases d <;> simp [hf, mergeEntries_keys]

theorem initFieldsG_keys (recur : ModelDef → Option Val → Option Val)
    (reg : Registry) (muts : List (String × (Val → Val))) :
    ∀ (l : List (String × Attrs)) (props : List (String × Val)),
      initFieldsG recur reg muts l = some props →
      props.map Prod.fst = l.map Prod.fst := by
  intro l
  induction l with
  | nil => intro props h; simp only [initFieldsG] at h; cases h; rfl
  | cons e rest ih =>
    intro props h
    obtain ⟨k, a⟩ := e
    simp only [initFieldsG] at h
    cases hv : initFieldG recur reg muts k a with
    | none => rw [hv] at h; cases h
    | some v =>
      rw [hv] at h
      cases hrest : initFieldsG recur reg muts rest with
      | none => rw [hrest] at h; cases h
      | some vs =>
        rw [hrest] at h
        cases h
        simp [ih vs hrest]

/-- Shape of every successful instantiation: an instance of the model's
entity whose property names are exactly the declared field names in
declared order. -/
theorem instantiate_shape (reg : Registry) (n : Nat) (M : ModelDef)
    (data : Option Val) (v : Val) (h : instantiate reg n M data = some v) :
    ∃ props, v = .vinst M.entity props
      ∧ props.map Prod.fst = M.fields.map Prod.fst := by
  cases n with
  | zero => simp [instantiate] at h
  | succ m =>
    simp only [instantiate] at h
    cases hi : initFieldsG (fun M2 d => instantiate reg m M2 d) reg M.mutators
        (mergeFields M.fields data) with
    | none => rw [hi] at h; cases h
    | some props =>
      rw [hi] at h
      cases h
      refine ⟨props, rfl, ?_⟩
      rw [initFieldsG_keys _ _ _ _ _ hi, mergeFields_keys]

/-- C4: a successful instantiation yields an instance of the model's entity
whose property names are exactly the declared field names, in declared
order: merged-in data only overwrites declared descriptors' values (unknown
keys are ignored) and every declared field is assigned. -/
theorem claim_C4_field_set (reg : Registry) (n : Nat) (M : ModelDef)
    (data : Option Val) (v : Val) (h : instantiate reg n M data = some v) :
    ∃ props, v = .vinst M.entity props
      ∧ props.map Prod.fst = M.fields.map Prod.fst :=
  instantiate_shape reg n M data v h

/-- Witness for C4: instantiating `Post` from `{id: 1, junk: 9}` silently
drops the undeclared key `junk` and still carries every declared field
(`id`, `title`, `author`), exactly. -/
theorem claim_C4_witness :
    instantiate regB 3 postB (some (.vobj [("id", .vnum 1), ("junk", .vnum 9)]))
      = some (.vinst "Post" [("id", .vnum 1), ("title", .vstr ""), ("author", .vnull)])
    ∧ ∃ props, Val.vinst "Post" [("id", .vnum 1), ("title", .vstr ""), ("author", .vnull)]
        = .vinst postB.entity props
      ∧ props.map Prod.fst = postB.fields.map Prod.fst :=
  ⟨rfl, claim_C4_field_set regB 3 postB
    (some (.vobj [("id", .vnum 1), ("junk", .vnum 9)])) _ rfl⟩

/-! C1: foreign-key synthesis after normalization. -/

theorem attachStep_hasKey_mono (fields : List (String × Attrs))
    (acc : List (String × Val)) (e : String × Val) (k : String)
    (h : hasKey acc k = true) : hasKey (attachStep fields acc e) k = true := by
  unfold attachStep
  cases lookupField fields e.1 with
  | none => exact h
  | some a =>
    cases a with
    | belongsTo mref fk2 dv po =>
      by_cases hg : truthy (getv acc fk2) = true
      · simpa [hg] using h
      · simp only [hg, Bool.false_eq_true, if_false, hasKey_setv, h, Bool.true_or]
    | attr dv m => exact h
    | hasOne mref fk2 dv po => exact h
    | hasMany mref fk2 dv po => exact h
    | hasManyBy mref fk2 ok dv po => exact h

theorem attachRecord_hasKey_mono (fields : List (String × Attrs))
    (r : List (String × Val)) (k : String) (h : hasKey r k = true) :
    hasKey (attachRecord fields r) k = true := by
  unfold attachRecord
  exact foldl_inv (fun acc => hasKey acc k = true) _ r r h
    (fun acc b _ hacc => attachStep_hasKey_mono fields acc b k hacc)

theorem attachStep_synthesizes (fields : List (String × Attrs))
    (acc : List (String × Val)) (f : String) (v : Val) (mref : ModelRef)
    (fk : String) (dv : Val) (po : Bool)
    (hl : lookupField fields f = some (.belongsTo mref fk dv po)) :
    hasKey (attachStep fields acc (f, v)) fk = true := by
  unfold attachStep
  simp only [hl]
  by_cases hg : truthy (getv acc fk) = true
  · simp only [hg, if_true]
    exact truthy_getv_hasKey acc fk hg
  · simp only [hg, Bool.false_eq_true, if_false, hasKey_setv]
    simp

theorem attachRecord_synthesizes (fields : List (String × Attrs))
    (r : List (String × Val)) (f : String) (v : Val) (mref : ModelRef)
    (fk : String) (dv : Val) (po : Bool) (hmem : (f, v) ∈ r)
    (hl : lookupField fields f = some (.belongsTo mref fk dv po)) :
    hasKey (attachRecord fields r) fk = true := by
  obtain ⟨l1, l2, hr⟩ := List.append_of_mem hmem
  unfold attachRecord
  conv_lhs => rw [hr]
  rw [List.foldl_append, List.foldl_cons]
  exact foldl_inv (fun acc => hasKey acc fk = true) _ l2 _
    (attachStep_synthesizes fields _ f v mref fk dv po hl)
    (fun acc b _ hacc => attachStep_hasKey_mono fields acc b fk hacc)

/-- Counterexample to C1 as stated: `Post` declares a `BelongsTo` under
field `author` with foreign key `userId`, yet normalizing the raw record
`{id: 10}` (which embeds no related object at all) produces a `Post` bucket
whose single record carries no `userId` key — the foreign-key guarantee
fails for records that supplied neither the foreign key nor the relation
field. -/
theorem claim_C1_counterexample :
    lookupField postB.fields "author"
      = some (.belongsTo (.byName "User") "userId" .vnull false)
    ∧ normalize regB 3 postB (.vobj [("id", .vnum 10)])
      = some [("Post", [("10", [("id", .vnum 10)])])]
    ∧ hasKey [("id", Val.vnum 10)] "userId" = false :=
  ⟨rfl, rfl, rfl⟩

/-- C1 amended: after `attachForeignKeys`, a record's bucket entry has a
defined value under a `BelongsTo` field's foreign key `fk` whenever the
incoming record carried either the relation field itself (whose normalized,
id-only value is then synthesized under `fk`) or `fk` directly. -/
theorem claim_C1_foreign_key_synthesis (M : ModelDef)
    (recs : List (String × List (String × Val))) (pk : String)
    (r : List (String × Val)) (f : String) (mref : ModelRef) (fk : String)
    (dv : Val) (po : Bool) (hmem : (pk, r) ∈ recs)
    (hl : lookupField M.fields f = some (.belongsTo mref fk dv po))
    (hsrc : hasKey r f = true ∨ hasKey r fk = true) :
    ∃ r2, (pk, r2) ∈ attachForeignKeys recs M ∧ hasKey r2 fk = true := by
  refine ⟨attachRecord M.fields r, ?_, ?_⟩
  · unfold attachForeignKeys
    exact List.mem_map.mpr ⟨(pk, r), hmem, rfl⟩
  · cases hsrc with
    | inl hf =>
      obtain ⟨v, hv⟩ := hasKey_mem r f hf
      exact attachRecord_synthesizes M.fields r f v mref fk dv po hv hl
    | inr hfk => exact attachRecord_hasKey_mono M.fields r fk hfk

/-- Witness for C1 amended: the spec's second scenario — the raw `Post`
embeds its user under `author` (not `userId`); after `attachForeignKeys`
the `Post` record at key `10` has `userId` defined (with the normalized id
`1`). -/
theorem claim_C1_witness :
    (("10", [("id", Val.vnum 10), ("title", Val.vstr "Hi"), ("author", Val.vnum 1)])
        ∈ [("10", [("id", Val.vnum 10), ("title", Val.vstr "Hi"), ("author", Val.vnum 1)])])
    ∧ lookupField postB.fields "author"
      = some (.belongsTo (.byName "User") "userId" .vnull false)
    ∧ (∃ r2, ("10", r2) ∈ attachForeignKeys
        [("10", [("id", .vnum 10), ("title", .vstr "Hi"), ("author", .vnum 1)])] postB
      ∧ hasKey r2 "userId" = true) :=
  ⟨List.mem_singleton.mpr rfl, rfl,
    claim_C1_foreign_key_synthesis postB
      [("10", [("id", .vnum 10), ("title", .vstr "Hi"), ("author", .vnum 1)])]
      "10" [("id", .vnum 10), ("title", .vstr "Hi"), ("author", .vnum 1)]
      "author" (.byName "User") "userId" .vnull false
      (List.mem_singleton.mpr rfl) rfl (Or.inl rfl)⟩

/-! C9: the merge step never mutates previously materialized field maps. -/

theorem addrMap_mem_bound :
    ∀ (fs : List (String × Attrs)) (base : Nat) (p : String × Nat),
      p ∈ addrMap base fs → base ≤ p.2 ∧ p.2 < base + fs.length := by
  intro fs
  induction fs with
  | nil => intro base p hp; simp [addrMap] at hp
  | cons e rest ih =>
    intro base p hp
    obtain ⟨k, a⟩ := e
    simp only [addrMap, List.mem_cons] at hp
    cases hp with
    | inl h =>
      subst h
      refine ⟨Nat.le_refl _, ?_⟩
      show base < base + (rest.length + 1)
      omega
    | inr h =>
      obtain ⟨h1, h2⟩ := ih (base + 1) p h
      refine ⟨by omega, ?_⟩
      show p.2 < base + (rest.length + 1)
      omega

theorem lookupAddr_mem (fm : List (String × Nat)) (k : String) (i : Nat)
    (h : lookupAddr fm k = some i) : (k, i) ∈ fm := by
  induction fm with
  | nil => simp [lookupAddr] at h
  | cons e rest ih =>
    obtain ⟨k2, j⟩ := e
    by_cases hk : k2 = k
    · simp only [lookupAddr, if_pos hk] at h
      cases h
      subst hk
      exact List.mem_cons_self _ _
    · simp only [lookupAddr, if_neg hk] at h
      exact List.mem_cons_of_mem _ (ih h)

theorem mergeRunEntries_frame (fm : List (String × Nat))
    (kvs : List (String × Val)) (st : FStore) (j : Nat)
    (hfm : ∀ p ∈ fm, j < p.2) :
    readCell (mergeRunEntries fm st kvs) j = readCell st j := by
  unfold mergeRunEntries
  refine foldl_inv (fun acc => readCell acc j = readCell st j) _ kvs st rfl ?_
  intro acc b _ hacc
  cases hl : lookupAddr fm b.1 with
  | none => exact hacc
  | some i =>
    have hij : j < i := hfm (b.1, i) (lookupAddr_mem fm b.1 i hl)
    cases hr : readCell acc i with
    | none => simp only [hr]; exact hacc
    | some a =>
      simp only [hr]
      simp only [writeCell, readCell] at hacc ⊢
      rw [List.get?_set_ne _ _ (by omega : i ≠ j)]
      exact hacc

theorem mergeRun_frame (st : FStore) (fm : List (String × Nat))
    (data : Option Val) (j : Nat) (hfm : ∀ p ∈ fm, j < p.2) :
    readCell (mergeRun st fm data) j = readCell st j := by
  unfold mergeRun
  cases data with
  | none => rfl
  | some d =>
    by_cases hf : falsyV d = true
    · simp [hf]
    · cases d <;> simp [hf] <;> rw [mergeRunEntries_frame _ _ _ _ hfm]

theorem readFieldMap_ext (fm : List (String × Nat)) (st1 st2 : FStore)
    (h : ∀ p ∈ fm, readCell st1 p.2 = readCell st2 p.2) :
    readFieldMap st1 fm = readFieldMap st2 fm := by
  induction fm with
  | nil => rfl
  | cons e rest ih =>
    obtain ⟨k, i⟩ := e
    simp only [readFieldMap]
    rw [h (k, i) (List.mem_cons_self _ _),
      ih (fun p hp => h p (List.mem_cons_of_mem _ hp))]

theorem readFieldMap_fresh :
    ∀ (fs : List (String × Attrs)) (pre post : List Attrs),
      readFieldMap ⟨pre ++ fs.map Prod.snd ++ post⟩ (addrMap pre.length fs)
        = some fs := by
  intro fs
  induction fs with
  | nil => intro pre post; rfl
  | cons e rest ih =>
    intro pre post
    obtain ⟨k, a⟩ := e
    simp only [addrMap, readFieldMap]
    have hcell : readCell ⟨pre ++ ((k, a) :: rest).map Prod.snd ++ post⟩ pre.length
        = some a := by
      simp only [readCell, List.map_cons]
      rw [List.get?_append (by simp only [List.length_append, List.length_cons]; omega)]
      rw [List.get?_append_right (Nat.le_refl _)]
      simp
    rw [hcell]
    have hstore : (pre ++ ((k, a) :: rest).map Prod.snd ++ post : List Attrs)
        = (pre ++ [a]) ++ rest.map Prod.snd ++ post := by
      simp [List.append_assoc]
    have hlen : pre.length + 1 = (pre ++ [a]).length := by simp
    rw [hstore, hlen, ih (pre ++ [a]) post]

/-- C9: instantiation's merge step writes only the descriptor cells freshly
allocated by its own `fields()` call; every previously materialized field
map (in particular the one observed by a `fields()` call before the
instantiation) reads back unchanged afterwards, and any `fields()` readout
is always exactly the model's declared field list. -/
theorem claim_C9_no_shared_mutation (M : ModelDef) (st : FStore) (data : Option Val) :
    (∀ i, i < (fieldsRun M st).1.cells.length →
      readCell (mergeRun (fieldsRun M (fieldsRun M st).1).1
        (fieldsRun M (fieldsRun M st).1).2 data) i = readCell (fieldsRun M st).1 i)
    ∧ readFieldMap (mergeRun (fieldsRun M (fieldsRun M st).1).1
        (fieldsRun M (fieldsRun M st).1).2 data) (fieldsRun M st).2 = some M.fields
    ∧ readFieldMap (fieldsRun M st).1 (fieldsRun M st).2 = some M.fields := by
  have hlen1 : (fieldsRun M st).1.cells.length
      = st.cells.length + M.fields.length := by
    simp [fieldsRun]
  have hmain : ∀ i, i < (fieldsRun M st).1.cells.length →
      readCell (mergeRun (fieldsRun M (fieldsRun M st).1).1
        (fieldsRun M (fieldsRun M st).1).2 data) i = readCell (fieldsRun M st).1 i := by
    intro i hi
    have hge : ∀ p ∈ (fieldsRun M (fieldsRun M st).1).2, i < p.2 := by
      intro p hp
      have := addrMap_mem_bound M.fields (fieldsRun M st).1.cells.length p hp
      omega
    rw [mergeRun_frame _ _ _ _ hge]
    simp only [fieldsRun, readCell]
    rw [List.get?_append (by exact hi)]
  have hfresh : readFieldMap (fieldsRun M st).1 (fieldsRun M st).2 = some M.fields := by
    have : (fieldsRun M st).1.cells = st.cells ++ M.fields.map Prod.snd ++ [] := by
      simp [fieldsRun]
    simp only [fieldsRun]
    have := readFieldMap_fresh M.fields st.cells []
    simpa using this
  refine ⟨hmain, ?_, hfresh⟩
  have hext : readFieldMap (mergeRun (fieldsRun M (fieldsRun M st).1).1
      (fieldsRun M (fieldsRun M st).1).2 data) (fieldsRun M st).2
      = readFieldMap (fieldsRun M st).1 (fieldsRun M st).2 := by
    refine readFieldMap_ext _ _ _ ?_
    intro p hp
    have hb := addrMap_mem_bound M.fields st.cells.length p
      (by simpa [fieldsRun] using hp)
    exact hmain p.2 (by omega)
  rw [hext, hfresh]

/-- Witness for C9: over an initially empty store, instantiating `Post`
with data `{id: 1}` leaves the first `fields()` call's cell 0 unchanged,
and the first field-map snapshot still reads back as `Post`'s declared
fields after the merge. -/
theorem claim_C9_witness :
    readCell (mergeRun (fieldsRun postB (fieldsRun postB ⟨[]⟩).1).1
        (fieldsRun postB (fieldsRun postB ⟨[]⟩).1).2
        (some (.vobj [("id", .vnum 1)]))) 0 = readCell (fieldsRun postB ⟨[]⟩).1 0
    ∧ readFieldMap (mergeRun (fieldsRun postB (fieldsRun postB ⟨[]⟩).1).1
        (fieldsRun postB (fieldsRun postB ⟨[]⟩).1).2
        (some (.vobj [("id", .vnum 1)]))) (fieldsRun postB ⟨[]⟩).2 = some postB.fields :=
  ⟨(claim_C9_no_shared_mutation postB ⟨[]⟩ (some (.vobj [("id", .vnum 1)]))).1 0
      (by decide),
   (claim_C9_no_shared_mutation postB ⟨[]⟩ (some (.vobj [("id", .vnum 1)]))).2.1⟩

/-! C10: `attachForeignKeys` is not idempotent in general; it is once no
`BelongsTo` foreign key is itself declared as a `BelongsTo` field. -/

/-- Whether a key is declared as a `BelongsTo` field. -/
def isBelongsToField (fields : List (String × Attrs)) (k : String) : Bool :=
  match lookupField fields k with
  | some (.belongsTo _ _ _ _) => true
  | _ => false

/-- Boolean form of the idempotence side condition: no `BelongsTo` field's
foreign key is itself declared as a `BelongsTo` field. -/
def fkCheck (fields : List (String × Attrs)) : Bool :=
  fields.all (fun e =>
    match e.2 with
    | .belongsTo _ fk _ _ => !isBelongsToField fields fk
    | _ => true)

/-- The effective write sequence of one `attachRecord` pass: the record's
`BelongsTo` entries, as (foreign key, value) pairs in iteration order. -/
def fkSteps (fields : List (String × Attrs)) (r : List (String × Val)) :
    List (String × Val) :=
  r.filterMap (fun e =>
    match lookupField fields e.1 with
    | some (.belongsTo _ fk _ _) => some (fk, e.2)
    | _ => none)

/-- Replay a write sequence: each step writes its value under its key
unless the accumulated record already holds a truthy value there. -/
def applyFkSteps (steps : List (String × Val)) (acc : List (String × Val)) :
    List (String × Val) :=
  steps.foldl
    (fun acc s => if truthy (getv acc s.1) then acc else setv acc s.1 s.2)
    acc

/-- The single-key dynamics of the replay: successive candidate values are
taken while the current value stays falsy. -/
def stepVals (x : Val) : List Val → Val
  | [] => x
  | v :: vs => stepVals (if truthy x then x else v) vs

/-- The candidate values a write sequence offers at one key. -/
def keyVals (steps : List (String × Val)) (k : String) : List Val :=
  steps.filterMap (fun s => if s.1 = k then some s.2 else none)

theorem lookupField_mem (fields : List (String × Attrs)) (k : String) (a : Attrs)
    (h : lookupField fields k = some a) : (k, a) ∈ fields := by
  induction fields with
  | nil => simp [lookupField] at h
  | cons e rest ih =>
    obtain ⟨k2, a2⟩ := e
    by_cases hk : k2 = k
    · simp only [lookupField, if_pos hk] at h
      cases h
      subst hk
      exact List.mem_cons_self _ _
    · simp only [lookupField, if_neg hk] at h
      exact List.mem_cons_of_mem _ (ih h)

theorem attachRecord_eq_steps (fields : List (String × Attrs)) :
    ∀ (l acc : List (String × Val)),
      l.foldl (attachStep fields) acc = applyFkSteps (fkSteps fields l) acc := by
  intro l
  induction l with
  | nil => intro acc; rfl
  | cons e rest ih =>
    intro acc
    rw [List.foldl_cons]
    cases hl : lookupField fields e.1 with
    | none =>
      have hstep : attachStep fields acc e = acc := by unfold attachStep; rw [hl]
      have hfs : fkSteps fields (e :: rest) = fkSteps fields rest := by
        unfold fkSteps
        rw [List.filterMap_cons]
        simp [hl]
      rw [hstep, hfs, ih]
    | some a =>
      cases a with
      | belongsTo mref fk dv po =>
        have hstep : attachStep fields acc e
            = (if truthy (getv acc fk) then acc else setv acc fk e.2) := by
          unfold attachStep; rw [hl]
        have hfs : fkSteps fields (e :: rest) = (fk, e.2) :: fkSteps fields rest := by
          unfold fkSteps
          rw [List.filterMap_cons]
          simp [hl]
        rw [hstep, hfs, ih]
        rfl
      | attr dv m =>
        have hstep : attachStep fields acc e = acc := by unfold attachStep; rw [hl]
        have hfs : fkSteps fields (e :: rest) = fkSteps fields rest := by
          unfold fkSteps; rw [List.filterMap_cons]; simp [hl]
        rw [hstep, hfs, ih]
      | hasOne mref fk dv po =>
        have hstep : attachStep fields acc e = acc := by unfold attachStep; rw [hl]
        have hfs : fkSteps fields (e :: rest) = fkSteps fields rest := by
          unfold fkSteps; rw [List.filterMap_cons]; simp [hl]
        rw [hstep, hfs, ih]
      | hasMany mref fk dv po =>
        have hstep : attachStep fields acc e = acc := by unfold attachStep; rw [hl]
        have hfs : fkSteps fields (e :: rest) = fkSteps fields rest := by
          unfold fkSteps; rw [List.filterMap_cons]; simp [hl]
        rw [hstep, hfs, ih]
      | hasManyBy mref fk ok dv po =>
        have hstep : attachStep fields acc e = acc := by unfold attachStep; rw [hl]
        have hfs : fkSteps fields (e :: rest) = fkSteps fields rest := by
          unfold fkSteps; rw [List.filterMap_cons]; simp [hl]
        rw [hstep, hfs, ih]

theorem attachRecord_steps (fields : List (String × Attrs))
    (r : List (String × Val)) :
    attachRecord fields r = applyFkSteps (fkSteps fields r) r :=
  attachRecord_eq_steps fields r r

theorem hasKey_keys (r : List (String × Val)) (k : String) :
    hasKey r k = (r.map Prod.fst).contains k := by
  induction r with
  | nil => rfl
  | cons e rest ih =>
    by_cases he : e.1 = k
    · simp [hasKey, ih, List.contains_cons, he]
    · have h1 : (e.1 == k) = false := by simpa using he
      have h2 : (k == e.1) = false := by simpa using Ne.symm he
      simp [hasKey, ih, List.contains_cons, h1, h2]

theorem getv_of_not_hasKey (r : List (String × Val)) (k : String)
    (h : hasKey r k = false) : getv r k = .vundefined := by
  induction r with
  | nil => rfl
  | cons e rest ih =>
    obtain ⟨k1, v1⟩ := e
    simp only [hasKey, Bool.or_eq_false_iff, beq_eq_false_iff_ne, ne_eq] at h
    simp [getv, h.1, ih h.2]

theorem map_upd_keys (r : List (String × Val)) (k : String) (v : Val) :
    (r.map (fun e => if e.1 = k then (e.1, v) else e)).map Prod.fst
      = r.map Prod.fst := by
  induction r with
  | nil => rfl
  | cons e rest ih =>
    obtain ⟨k1, v1⟩ := e
    by_cases hk : k1 = k
    · rw [List.map_cons, show (if (k1, v1).1 = k then ((k1, v1).1, v) else (k1, v1)) = (k1, v) from by rw [if_pos hk]]
      simp [ih]
    · rw [List.map_cons, show (if (k1, v1).1 = k then ((k1, v1).1, v) else (k1, v1)) = (k1, v1) from by rw [if_neg hk]]
      simp [ih]

theorem setv_keys_of_hasKey (r : List (String × Val)) (k : String) (v : Val)
    (h : hasKey r k = true) : (setv r k v).map Prod.fst = r.map Prod.fst := by
  unfold setv
  rw [if_pos h, map_upd_keys]

theorem hasKey_false_not_mem (r : List (String × Val)) (k : String)
    (h : hasKey r k = false) : k ∉ r.map Prod.fst := by
  induction r with
  | nil => simp
  | cons e rest ih =>
    obtain ⟨k1, v1⟩ := e
    simp only [hasKey, Bool.or_eq_false_iff, beq_eq_false_iff_ne, ne_eq] at h
    simp only [List.map_cons, List.mem_cons]
    rintro (hh | hh)
    · exact h.1 hh.symm
    · exact ih h.2 hh

theorem setv_nodup (r : List (String × Val)) (k : String) (v : Val)
    (h : (r.map Prod.fst).Nodup) : ((setv r k v).map Prod.fst).Nodup := by
  unfold setv
  by_cases hk : hasKey r k = true
  · rw [if_pos hk, map_upd_keys]; exact h
  · rw [if_neg hk, List.map_append]
    refine List.Nodup.append h (List.nodup_singleton _) ?_
    intro a ha hb
    rw [List.map_singleton, List.mem_singleton] at hb
    have hb2 : a = k := hb
    exact hasKey_false_not_mem r k (by simpa using hk) (hb2 ▸ ha)

theorem getv_applyFkSteps :
    ∀ (steps : List (String × Val)) (acc : List (String × Val)) (k : String),
      getv (applyFkSteps steps acc) k = stepVals (getv acc k) (keyVals steps k) := by
  intro steps
  induction steps with
  | nil => intro acc k; rfl
  | cons s rest ih =>
    intro acc k
    obtain ⟨ks, vs⟩ := s
    show getv (applyFkSteps rest
      (if truthy (getv acc ks) then acc else setv acc ks vs)) k = _
    by_cases hk : ks = k
    · subst hk
      have hkv : keyVals ((ks, vs) :: rest) ks = vs :: keyVals rest ks := by
        unfold keyVals
        rw [List.filterMap_cons]
        simp
      rw [hkv]
      show _ = stepVals (if truthy (getv acc ks) then getv acc ks else vs)
        (keyVals rest ks)
      by_cases ht : truthy (getv acc ks) = true
      · rw [if_pos ht, if_pos ht, ih]
      · rw [if_neg ht, if_neg ht, ih, getv_setv_self]
    · have hkv : keyVals ((ks, vs) :: rest) k = keyVals rest k := by
        unfold keyVals
        rw [List.filterMap_cons]
        simp [hk]
      rw [hkv]
      by_cases ht : truthy (getv acc ks) = true
      · rw [if_pos ht, ih]
      · rw [if_neg ht, ih, getv_setv_ne acc ks k vs (fun hh => hk hh.symm)]

theorem stepVals_fix (vs : List Val) : ∀ x, truthy x = true → stepVals x vs = x := by
  induction vs with
  | nil => intro x _; rfl
  | cons v rest ih =>
    intro x ht
    show stepVals (if truthy x then x else v) rest = x
    rw [if_pos ht, ih x ht]

theorem stepVals_idem (x : Val) (vs : List Val) :
    stepVals (stepVals x vs) vs = stepVals x vs := by
  by_cases ht : truthy (stepVals x vs) = true
  · exact stepVals_fix vs _ ht
  · cases vs with
    | nil => rfl
    | cons v rest =>
      by_cases hx : truthy x = true
      · exfalso
        have : stepVals x (v :: rest) = x := by
          show stepVals (if truthy x then x else v) rest = x
          rw [if_pos hx, stepVals_fix rest x hx]
        rw [this] at ht
        exact ht hx
      · have hv : stepVals x (v :: rest) = stepVals v rest := by
          show stepVals (if truthy x then x else v) rest = _
          rw [if_neg hx]
        rw [hv] at ht ⊢
        show stepVals (if truthy (stepVals v rest) then stepVals v rest else v) rest
          = stepVals v rest
        rw [if_neg ht]

theorem fkSteps_map_upd (fields : List (String × Attrs)) (k : String) (v : Val)
    (hbt : isBelongsToField fields k = false) :
    ∀ r : List (String × Val),
      fkSteps fields (r.map (fun e => if e.1 = k then (e.1, v) else e))
        = fkSteps fields r := by
  intro r
  induction r with
  | nil => rfl
  | cons e rest ih =>
    obtain ⟨k1, v1⟩ := e
    by_cases hk : k1 = k
    · rw [List.map_cons, show (if (k1, v1).1 = k then ((k1, v1).1, v) else (k1, v1)) = (k1, v) from by rw [if_pos hk]]
      unfold fkSteps at ih ⊢
      rw [List.filterMap_cons, List.filterMap_cons]
      subst hk
      unfold isBelongsToField at hbt
      cases hl : lookupField fields k1 with
      | none => simp only [hl]; exact ih
      | some a =>
        cases a with
        | belongsTo mref fk dv po => rw [hl] at hbt; simp at hbt
        | attr dv m => simp only [hl]; exact ih
        | hasOne mref fk dv po => simp only [hl]; exact ih
        | hasMany mref fk dv po => simp only [hl]; exact ih
        | hasManyBy mref fk ok dv po => simp only [hl]; exact ih
    · rw [List.map_cons, show (if (k1, v1).1 = k then ((k1, v1).1, v) else (k1, v1)) = (k1, v1) from by rw [if_neg hk]]
      unfold fkSteps at ih ⊢
      rw [List.filterMap_cons, List.filterMap_cons]
      cases hl : lookupField fields k1 with
      | none => exact ih
      | some a => cases a <;> simp only [hl] <;> rw [ih]

theorem fkSteps_setv (fields : List (String × Attrs)) (r : List (String × Val))
    (k : String) (v : Val) (hbt : isBelongsToField fields k = false) :
    fkSteps fields (setv r k v) = fkSteps fields r := by
  unfold setv
  by_cases hk : hasKey r k = true
  · rw [if_pos hk]
    exact fkSteps_map_upd fields k v hbt r
  · rw [if_neg hk]
    unfold fkSteps
    rw [List.filterMap_append]
    have : List.filterMap (fun e =>
        match lookupField fields e.1 with
        | some (.belongsTo _ fk _ _) => some (fk, e.2)
        | _ => none) [(k, v)] = [] := by
      rw [List.filterMap_cons]
      unfold isBelongsToField at hbt
      cases hl : lookupField fields k with
      | none => simp
      | some a =>
        cases a with
        | belongsTo mref fk dv po => rw [hl] at hbt; simp at hbt
        | attr dv m => simp [hl]
        | hasOne mref fk dv po => simp [hl]
        | hasMany mref fk dv po => simp [hl]
        | hasManyBy mref fk ok dv po => simp [hl]
    rw [this, List.append_nil]

theorem fkSteps_applyFkSteps (fields : List (String × Attrs))
    (steps : List (String × Val)) (acc : List (String × Val))
    (hsafe : ∀ p ∈ steps, isBelongsToField fields p.1 = false) :
    fkSteps fields (applyFkSteps steps acc) = fkSteps fields acc := by
  unfold applyFkSteps
  refine foldl_inv (fun acc2 => fkSteps fields acc2 = fkSteps fields acc) _ steps acc rfl ?_
  intro acc2 b hb hacc
  by_cases ht : truthy (getv acc2 b.1) = true
  · rw [if_pos ht]; exact hacc
  · rw [if_neg ht, fkSteps_setv fields acc2 b.1 b.2 (hsafe b hb)]
    exact hacc

theorem fkSteps_mem_not_bt (fields : List (String × Attrs))
    (r : List (String × Val))
    (hfk : fkCheck fields = true) :
    ∀ p ∈ fkSteps fields r, isBelongsToField fields p.1 = false := by
  intro p hp
  unfold fkSteps at hp
  rw [List.mem_filterMap] at hp
  obtain ⟨e, _, he⟩ := hp
  cases hl : lookupField fields e.1 with
  | none => rw [hl] at he; cases he
  | some a =>
    cases a with
    | belongsTo mref fk dv po =>
      rw [hl] at he
      cases he
      have hmem := lookupField_mem fields e.1 _ hl
      unfold fkCheck at hfk
      rw [List.all_eq_true] at hfk
      have := hfk _ hmem
      simpa using this
    | attr dv m => rw [hl] at he; cases he
    | hasOne mref fk dv po => rw [hl] at he; cases he
    | hasMany mref fk dv po => rw [hl] at he; cases he
    | hasManyBy mref fk ok dv po => rw [hl] at he; cases he

theorem applyFkSteps_hasKey_mono (steps : List (String × Val))
    (acc : List (String × Val)) (k : String) (h : hasKey acc k = true) :
    hasKey (applyFkSteps steps acc) k = true := by
  unfold applyFkSteps
  refine foldl_inv (fun acc2 => hasKey acc2 k = true) _ steps acc h ?_
  intro acc2 b _ hacc
  by_cases ht : truthy (getv acc2 b.1) = true
  · rw [if_pos ht]; exact hacc
  · rw [if_neg ht, hasKey_setv, hacc, Bool.true_or]

theorem applyFkSteps_hasKey_of_mem (steps : List (String × Val))
    (acc : List (String × Val)) (k : String) (v : Val)
    (hmem : (k, v) ∈ steps) :
    hasKey (applyFkSteps steps acc) k = true := by
  obtain ⟨l1, l2, hsplit⟩ := List.append_of_mem hmem
  subst hsplit
  unfold applyFkSteps
  rw [List.foldl_append, List.foldl_cons]
  have hafter : ∀ acc2 : List (String × Val),
      hasKey (if truthy (getv acc2 k) then acc2 else setv acc2 k v) k = true := by
    intro acc2
    by_cases ht : truthy (getv acc2 k) = true
    · rw [if_pos ht]; exact truthy_getv_hasKey acc2 k ht
    · rw [if_neg ht, hasKey_setv]; simp
  refine foldl_inv (fun acc2 => hasKey acc2 k = true) _ l2 _ (hafter _) ?_
  intro acc2 b _ hacc
  by_cases ht : truthy (getv acc2 b.1) = true
  · rw [if_pos ht]; exact hacc
  · rw [if_neg ht, hasKey_setv, hacc, Bool.true_or]

theorem applyFkSteps_keys_of_present (steps : List (String × Val))
    (acc : List (String × Val))
    (hpres : ∀ p ∈ steps, hasKey acc p.1 = true) :
    (applyFkSteps steps acc).map Prod.fst = acc.map Prod.fst := by
  unfold applyFkSteps
  refine foldl_inv (fun acc2 => acc2.map Prod.fst = acc.map Prod.fst) _ steps acc rfl ?_
  intro acc2 b hb hacc
  by_cases ht : truthy (getv acc2 b.1) = true
  · rw [if_pos ht]; exact hacc
  · rw [if_neg ht, setv_keys_of_hasKey, hacc]
    rw [hasKey_keys, hacc, ← hasKey_keys]
    exact hpres b hb

theorem applyFkSteps_nodup (steps : List (String × Val))
    (acc : List (String × Val)) (h : (acc.map Prod.fst).Nodup) :
    ((applyFkSteps steps acc).map Prod.fst).Nodup := by
  unfold applyFkSteps
  refine foldl_inv (fun acc2 => (acc2.map Prod.fst).Nodup) _ steps acc h ?_
  intro acc2 b _ hacc
  by_cases ht : truthy (getv acc2 b.1) = true
  · rw [if_pos ht]; exact hacc
  · rw [if_neg ht]; exact setv_nodup acc2 b.1 b.2 hacc

theorem assoc_ext (r1 : List (String × Val)) :
    ∀ r2 : List (String × Val), r1.map Prod.fst = r2.map Prod.fst →
      (r1.map Prod.fst).Nodup → (∀ k, getv r1 k = getv r2 k) → r1 = r2 := by
  induction r1 with
  | nil =>
    intro r2 hkeys _ _
    cases r2 with
    | nil => rfl
    | cons e t => simp at hkeys
  | cons e1 t1 ih =>
    intro r2 hkeys hnd hvals
    cases r2 with
    | nil => simp at hkeys
    | cons e2 t2 =>
      obtain ⟨k1, v1⟩ := e1
      obtain ⟨k2, v2⟩ := e2
      simp only [List.map_cons, List.cons.injEq] at hkeys
      obtain ⟨hk, htl⟩ := hkeys
      subst hk
      have hv : v1 = v2 := by
        have := hvals k1
        simpa [getv] using this
      subst hv
      simp only [List.map_cons, List.nodup_cons] at hnd
      refine congrArg _ (ih t2 htl hnd.2 ?_)
      intro k
      by_cases hk2 : k1 = k
      · subst hk2
        have h1 : hasKey t1 k1 = false := by
          cases hc : hasKey t1 k1 with
          | false => rfl
          | true =>
            obtain ⟨v, hv⟩ := hasKey_mem t1 k1 hc
            exact absurd (List.mem_map.mpr ⟨(k1, v), hv, rfl⟩) hnd.1
        have h2 : hasKey t2 k1 = false := by
          rw [hasKey_keys, ← htl, ← hasKey_keys]
          exact h1
        rw [getv_of_not_hasKey t1 k1 h1, getv_of_not_hasKey t2 k1 h2]
      · have := hvals k
        simpa [getv, hk2] using this

/-- The per-record idempotence, under the foreign-key side condition. -/
theorem attachRecord_idem (fields : List (String × Attrs))
    (r : List (String × Val)) (hnd : (r.map Prod.fst).Nodup)
    (hfk : fkCheck fields = true) :
    attachRecord fields (attachRecord fields r) = attachRecord fields r := by
  have hsafe := fkSteps_mem_not_bt fields r hfk
  have hr1 : attachRecord fields r = applyFkSteps (fkSteps fields r) r :=
    attachRecord_steps fields r
  have hS : fkSteps fields (attachRecord fields r) = fkSteps fields r := by
    rw [hr1]
    exact fkSteps_applyFkSteps fields _ r hsafe
  rw [attachRecord_steps fields (attachRecord fields r), hS]
  have hpres : ∀ p ∈ fkSteps fields r, hasKey (attachRecord fields r) p.1 = true := by
    intro p hp
    rw [hr1]
    exact applyFkSteps_hasKey_of_mem _ r p.1 p.2 (by simpa using hp)
  refine assoc_ext _ _ ?_ ?_ ?_
  · exact applyFkSteps_keys_of_present _ _ hpres
  · rw [applyFkSteps_keys_of_present _ _ hpres, hr1]
    exact applyFkSteps_nodup _ r hnd
  · intro k
    rw [getv_applyFkSteps, hr1, getv_applyFkSteps]
    exact stepVals_idem (getv r k) (keyVals (fkSteps fields r) k)

/-- Fields for the C10 counterexample: `author` is a `BelongsTo` whose
foreign key `boss` is itself declared as a `BelongsTo` field. -/
def c10M : ModelDef :=
  .mk "P" "id"
    [("author", .belongsTo (.byName "User") "boss" .vnull false),
     ("boss", .belongsTo (.byName "User") "bossId" .vnull false)] []

/-- Counterexample to C10 as stated: on the record `{author: 5}` one pass
of `attachForeignKeys` synthesizes `boss: 5`; the second pass then treats
the synthesized `boss` entry as a `BelongsTo` field of its own and
additionally synthesizes `bossId: 5`, so applying twice differs from
applying once. -/
theorem claim_C10_counterexample :
    attachForeignKeys (attachForeignKeys [("1", [("author", .vnum 5)])] c10M) c10M
      ≠ attachForeignKeys [("1", [("author", .vnum 5)])] c10M := by
  intro h
  exact Bool.noConfusion (show true = false from congrArg
    (fun nd : List (String × List (String × Val)) =>
      hasKey (nd.headD ("", [])).2 "bossId") h)

/-- C10 amended: `attachForeignKeys` is idempotent on every record
collection whose records have duplicate-free key lists, provided no
`BelongsTo` field's foreign key is itself declared as a `BelongsTo` field
of the same model. -/
theorem claim_C10_idempotent (M : ModelDef)
    (recs : List (String × List (String × Val)))
    (hnd : ∀ pr ∈ recs, (pr.2.map Prod.fst).Nodup)
    (hfk : fkCheck M.fields = true) :
    attachForeignKeys (attachForeignKeys recs M) M = attachForeignKeys recs M := by
  unfold attachForeignKeys
  rw [List.map_map]
  refine List.map_congr_left ?_
  intro pr hpr
  show (pr.1, attachRecord M.fields (attachRecord M.fields pr.2))
    = (pr.1, attachRecord M.fields pr.2)
  rw [attachRecord_idem M.fields pr.2 (hnd pr hpr) hfk]

/-- Witness for C10 amended: on `postB` (whose only `BelongsTo` foreign key
`userId` is not itself a `BelongsTo` field), a second `attachForeignKeys`
pass over a normalized record changes nothing. -/
theorem claim_C10_witness :
    attachForeignKeys (attachForeignKeys
        [("10", [("id", .vnum 10), ("author", .vnum 1)])] postB) postB
      = attachForeignKeys [("10", [("id", .vnum 10), ("author", .vnum 1)])] postB :=
  claim_C10_idempotent postB [("10", [("id", .vnum 10), ("author", .vnum 1)])]
    (by
      intro pr hpr
      rw [List.mem_singleton] at hpr
      subst hpr
      decide)
    rfl

/-! C5: the instantiate/toJson round trip. -/

/-- A model with a single mutated attribute: `x: attr(0, v => v + 1)`.
The mutator is invertible (subtract one) but not idempotent. -/
def mutM : ModelDef :=
  .mk "M" "id"
    [("id", .attr .vnull none),
     ("x", .attr (.vnum 0) (some (fun v => match v with
        | .vnum n => .vnum (n + 1)
        | w => w)))] []

/-- Registry holding `mutM`. -/
def regM : Registry := [("M", mutM)]

/-- Counterexample to C5 as stated: with the invertible mutator `+1`,
instantiating `{x: 1}` gives `x = 2`, serializing gives `{x: 2}`, and
re-instantiating applies the mutator again, giving `x = 3` — the round trip
is not the identity even though the mutator is invertible. -/
theorem claim_C5_counterexample :
    instantiate regM 3 mutM (some (.vobj [("x", .vnum 1)]))
      = some (.vinst "M" [("id", .vnull), ("x", .vnum 2)])
    ∧ toJson regM 3 (.vinst "M" [("id", .vnull), ("x", .vnum 2)])
      = some (.vobj [("id", .vnull), ("x", .vnum 2)])
    ∧ instantiate regM 3 mutM (some (.vobj [("id", .vnull), ("x", .vnum 2)]))
      = some (.vinst "M" [("id", .vnull), ("x", .vnum 3)])
    ∧ (Val.vinst "M" [("id", .vnull), ("x", .vnum 3)]
        ≠ .vinst "M" [("id", .vnull), ("x", .vnum 2)]) := by
  refine ⟨rfl, rfl, rfl, ?_⟩
  intro h
  have h2 : (3 : Int) = 2 := congrArg (fun v : Val =>
    match v with
    | Val.vinst _ props =>
      (match getv props "x" with
       | .vnum n => n
       | _ => 0)
    | _ => 0) h
  exact absurd h2 (by decide)

/-- Well-formedness of one descriptor for the amended round trip: an
attribute carries no mutator; a relation is non-polymorphic and targets a
registered name. -/
def attrWF : Attrs → Bool
  | .attr _ m => m.isNone
  | .hasOne mref _ _ po => !po && (match mref with | .byName _ => true | .direct _ => false)
  | .belongsTo mref _ _ po => !po && (match mref with | .byName _ => true | .direct _ => false)
  | .hasMany mref _ _ po => !po && (match mref with | .byName _ => true | .direct _ => false)
  | .hasManyBy mref _ _ _ po => !po && (match mref with | .byName _ => true | .direct _ => false)

/-- Well-formedness of a model for the amended round trip: duplicate-free
field names, no field named `"0"` (which object indexing would read), no
mutators, and well-formed descriptors. -/
def modelWF (M : ModelDef) : Prop :=
  (M.fields.map Prod.fst).Nodup
    ∧ ("0" ∉ M.fields.map Prod.fst)
    ∧ M.mutators = []
    ∧ ∀ e ∈ M.fields, attrWF e.2 = true

/-- Registry well-formedness: every registration is keyed by its model's
entity name and every registered model is well-formed. -/
def regWF (reg : Registry) : Prop :=
  ∀ p ∈ reg, p.1 = p.2.entity ∧ modelWF p.2

theorem lookupReg_mem (reg : Registry) (s : String) (m : ModelDef)
    (h : lookupReg reg s = some m) : (s, m) ∈ reg := by
  induction reg with
  | nil => simp [lookupReg] at h
  | cons e rest ih =>
    obtain ⟨k, m2⟩ := e
    by_cases hk : k = s
    · simp only [lookupReg, if_pos hk] at h
      cases h
      subst hk
      exact List.mem_cons_self _ _
    · simp only [lookupReg, if_neg hk] at h
      exact List.mem_cons_of_mem _ (ih h)

theorem regWF_lookup (reg : Registry) (s : String) (m : ModelDef)
    (hreg : regWF reg) (h : lookupReg reg s = some m) :
    modelWF m ∧ lookupReg reg m.entity = some m := by
  have hmem := lookupReg_mem reg s m h
  obtain ⟨hname, hwf⟩ := hreg (s, m) hmem
  refine ⟨hwf, ?_⟩
  have : m.entity = s := hname.symm
  rw [this]
  exact h

/-! Algebra of `setValue`/`getValue`. -/

theorem setValue_getValue (a : Attrs) : a.setValue a.getValue = a := by
  cases a <;> rfl

theorem getValue_setValue (a : Attrs) (v : Val) : (a.setValue v).getValue = v := by
  cases a <;> rfl

theorem setValue_setValue (a : Attrs) (v w : Val) :
    (a.setValue v).setValue w = a.setValue w := by
  cases a <;> rfl

/-- The value the merge loop leaves at key `k`, guarded by declaredness in
`K`: the last data entry for `k` wins, the default `d` survives otherwise. -/
def mvg (K : List String) (kvs : List (String × Val)) (k : String) (d : Val) : Val :=
  kvs.foldl (fun acc e => if e.1 = k ∧ K.contains e.1 then e.2 else acc) d

theorem mergeFoldK (K : List String) :
    ∀ (kvs : List (String × Val)) (l : List (String × Attrs)),
      kvs.foldl (fun acc e => if K.contains e.1 then updateVal acc e.1 e.2 else acc) l
        = l.map (fun en => (en.1, en.2.setValue (mvg K kvs en.1 en.2.getValue))) := by
  intro kvs
  induction kvs with
  | nil =>
    intro l
    show l = _
    induction l with
    | nil => rfl
    | cons e t iht =>
      rw [List.map_cons,
        show ((e.1 : String), e.2.setValue (mvg K [] e.1 e.2.getValue)) = e from by
          rw [show mvg K [] e.1 e.2.getValue = e.2.getValue from rfl, setValue_getValue],
        ← iht]
  | cons s rest ih =>
    intro l
    obtain ⟨k, w⟩ := s
    rw [List.foldl_cons]
    by_cases hK : K.contains k = true
    · rw [if_pos hK, ih]
      unfold updateVal
      rw [List.map_map]
      refine List.map_congr_left ?_
      intro en _
      by_cases hk : en.1 = k
      · simp only [Function.comp]
        rw [show (if en.1 = k then (en.1, en.2.setValue w) else en) = (en.1, en.2.setValue w) from by rw [if_pos hk]]
        show (en.1, (en.2.setValue w).setValue
          (mvg K rest en.1 ((en.2.setValue w).getValue))) = _
        rw [getValue_setValue, setValue_setValue]
        have hg : mvg K ((k, w) :: rest) en.1 en.2.getValue = mvg K rest en.1 w := by
          unfold mvg
          rw [List.foldl_cons, if_pos (show (k, w).1 = en.1 ∧ K.contains (k, w).1 = true from ⟨hk.symm, hK⟩)]
        rw [hg]
      · simp only [Function.comp]
        rw [show (if en.1 = k then (en.1, en.2.setValue w) else en) = en from by rw [if_neg hk]]
        have hg : mvg K ((k, w) :: rest) en.1 en.2.getValue
            = mvg K rest en.1 en.2.getValue := by
          unfold mvg
          rw [List.foldl_cons, if_neg (by intro hc; exact hk hc.1.symm)]
        rw [hg]
    · rw [if_neg hK, ih]
      refine List.map_congr_left ?_
      intro en _
      have hg : mvg K ((k, w) :: rest) en.1 en.2.getValue
          = mvg K rest en.1 en.2.getValue := by
        unfold mvg
        rw [List.foldl_cons, if_neg (by intro hc; exact hK hc.2)]
      rw [hg]

theorem mergeEntries_eq_map (fields : List (String × Attrs))
    (kvs : List (String × Val)) :
    mergeEntries fields kvs = fields.map (fun en =>
      (en.1, en.2.setValue (mvg (fields.map Prod.fst) kvs en.1 en.2.getValue))) :=
  mergeFoldK (fields.map Prod.fst) kvs fields

theorem not_mem_hasKey_false (r : List (String × Val)) (k : String)
    (h : k ∉ r.map Prod.fst) : hasKey r k = false := by
  cases hc : hasKey r k with
  | false => rfl
  | true =>
    obtain ⟨v, hv⟩ := hasKey_mem r k hc
    exact absurd (List.mem_map.mpr ⟨(k, v), hv, rfl⟩) h

theorem mvg_no_match (K : List String) (k : String) :
    ∀ (kvs : List (String × Val)) (d : Val), hasKey kvs k = false →
      mvg K kvs k d = d := by
  intro kvs
  induction kvs with
  | nil => intro d _; rfl
  | cons e rest ih =>
    intro d h
    obtain ⟨k1, w⟩ := e
    simp only [hasKey, Bool.or_eq_false_iff, beq_eq_false_iff_ne, ne_eq] at h
    unfold mvg
    rw [List.foldl_cons, if_neg (by intro hc; exact h.1 hc.1)]
    exact ih d h.2

theorem mvg_eq_getv (K : List String) (k : String) :
    ∀ kvs : List (String × Val), (kvs.map Prod.fst).Nodup →
      hasKey kvs k = true → K.contains k = true →
      ∀ d, mvg K kvs k d = getv kvs k := by
  intro kvs
  induction kvs with
  | nil => intro _ h _ _; simp [hasKey] at h
  | cons e rest ih =>
    intro hnd hk hK d
    obtain ⟨k1, w⟩ := e
    simp only [List.map_cons, List.nodup_cons] at hnd
    by_cases h1 : k1 = k
    · subst h1
      unfold mvg
      rw [List.foldl_cons,
        if_pos (show (k1, w).1 = k1 ∧ K.contains (k1, w).1 = true from ⟨rfl, hK⟩)]
      have hrest : hasKey rest k1 = false :=
        not_mem_hasKey_false rest k1 hnd.1
      show mvg K rest k1 w = _
      rw [mvg_no_match K k1 rest w hrest]
      simp [getv]
    · simp only [hasKey, beq_eq_false_iff_ne.mpr h1, Bool.false_or] at hk
      unfold mvg
      rw [List.foldl_cons, if_neg (by intro hc; exact h1 hc.1)]
      have := ih hnd.2 hk hK d
      unfold mvg at this
      rw [this]
      simp [getv, h1]

theorem serializeFields_keys (recur : Val → Option Val)
    (props : List (String × Val)) :
    ∀ (fl : List (String × Attrs)) (kvs : List (String × Val)),
      serializeFields recur props fl = some kvs →
      kvs.map Prod.fst = fl.map Prod.fst := by
  intro fl
  induction fl with
  | nil => intro kvs h; cases h; rfl
  | cons e rest ih =>
    intro kvs h
    obtain ⟨k, a⟩ := e
    simp only [serializeFields] at h
    cases hs : serializeField recur a (getv props k) with
    | none => rw [hs] at h; cases h
    | some w =>
      rw [hs] at h
      cases hrest : serializeFields recur props rest with
      | none => rw [hrest] at h; cases h
      | some ws =>
        rw [hrest] at h
        cases h
        simp [ih ws hrest]

theorem serializeFields_congr_props (recur : Val → Option Val)
    (p1 p2 : List (String × Val)) :
    ∀ fl : List (String × Attrs), (∀ e ∈ fl, getv p1 e.1 = getv p2 e.1) →
      serializeFields recur p1 fl = serializeFields recur p2 fl := by
  intro fl
  induction fl with
  | nil => intro _; rfl
  | cons e rest ih =>
    intro h
    obtain ⟨k, a⟩ := e
    simp only [serializeFields]
    rw [h (k, a) (List.mem_cons_self _ _),
      ih (fun e2 he2 => h e2 (List.mem_cons_of_mem _ he2))]

theorem toJson_inv (reg : Registry) (n : Nat) (x y : Val)
    (h : toJson reg n x = some y) :
    ∃ (n2 : Nat) (e : String) (props kvs : List (String × Val)) (M : ModelDef),
      n = n2 + 1 ∧ x = .vinst e props ∧ lookupReg reg e = some M
      ∧ serializeFields (fun z => toJson reg n2 z) props M.fields = some kvs
      ∧ y = .vobj kvs := by
  cases n with
  | zero => simp [toJson] at h
  | succ n2 =>
    cases x with
    | vinst e props =>
      simp only [toJson] at h
      cases hl : lookupReg reg e with
      | none => rw [hl] at h; cases h
      | some M =>
        rw [hl] at h
        have h2 : (match serializeFields (fun x => toJson reg n2 x) props M.fields with
            | none => none
            | some kvs => some (Val.vobj kvs)) = some y := h
        cases hs : serializeFields (fun x => toJson reg n2 x) props M.fields with
        | none => rw [hs] at h2; cases h2
        | some kvs =>
          rw [hs] at h2
          cases h2
          exact ⟨n2, e, props, kvs, M, rfl, rfl, hl, hs, rfl⟩
    | vnull => simp [toJson] at h
    | vundefined => simp [toJson] at h
    | vnum m => simp [toJson] at h
    | vstr s => simp [toJson] at h
    | vbool b => simp [toJson] at h
    | vobj kvs => simp [toJson] at h
    | varr l => simp [toJson] at h

theorem mapInst_forall2 (f : Option Val → Option Val) :
    ∀ (l ys : List Val), mapInst f l = some ys →
      List.Forall₂ (fun x y => f (some x) = some y) l ys := by
  intro l
  induction l with
  | nil => intro ys h; cases h; exact List.Forall₂.nil
  | cons x rest ih =>
    intro ys h
    simp only [mapInst] at h
    cases hx : f (some x) with
    | none => rw [hx] at h; cases h
    | some y =>
      rw [hx] at h
      cases hrest : mapInst f rest with
      | none => rw [hrest] at h; cases h
      | some ys2 =>
        rw [hrest] at h
        cases h
        exact List.Forall₂.cons hx (ih ys2 hrest)

theorem forall2_mapInst (f : Option Val → Option Val) :
    ∀ (l ys : List Val), List.Forall₂ (fun x y => f (some x) = some y) l ys →
      mapInst f l = some ys := by
  intro l
  induction l with
  | nil =>
    intro ys h
    cases h
    rfl
  | cons x rest ih =>
    intro ys h
    cases h with
    | cons hx hrest =>
      simp only [mapInst]
      rw [hx, ih _ hrest]

/-! Unfolding and inversion lemmas for the field initializer. -/

theorem initFieldG_hasOne (recur : ModelDef → Option Val → Option Val)
    (reg : Registry) (muts : List (String × (Val → Val))) (k : String)
    (mref : ModelRef) (fk : String) (po : Bool) (u : Val) :
    initFieldG recur reg muts k (.hasOne mref fk u po) =
      (if u.isNullV then some .vnull
       else if isNum u then some .vnull
       else
         match index0 u with
         | none => none
         | some w0 =>
           if isNum w0 then some .vnull
           else
             match resolveRelation reg (.hasOne mref fk u po) with
             | none => none
             | some m => if truthy u then recur m (some u) else some .vnull) := rfl

theorem initFieldG_belongsTo (recur : ModelDef → Option Val → Option Val)
    (reg : Registry) (muts : List (String × (Val → Val))) (k : String)
    (mref : ModelRef) (fk : String) (po : Bool) (u : Val) :
    initFieldG recur reg muts k (.belongsTo mref fk u po) =
      (if u.isNullV then some .vnull
       else if isNum u then some .vnull
       else
         match index0 u with
         | none => none
         | some w0 =>
           if isNum w0 then some .vnull
           else
             match resolveRelation reg (.belongsTo mref fk u po) with
             | none => none
             | some m => if truthy u then recur m (some u) else some .vnull) := rfl

theorem initFieldG_hasMany (recur : ModelDef → Option Val → Option Val)
    (reg : Registry) (muts : List (String × (Val → Val))) (k : String)
    (mref : ModelRef) (fk : String) (po : Bool) (u : Val) :
    initFieldG recur reg muts k (.hasMany mref fk u po) =
      (if u.isNullV then some .vnull
       else if isNum u then some .vnull
       else
         match index0 u with
         | none => none
         | some w0 =>
           if isNum w0 then some .vnull
           else
             match resolveRelation reg (.hasMany mref fk u po) with
             | none => none
             | some m =>
               if truthy u then
                 match u with
                 | .varr l =>
                   match mapInst (recur m) l with
                   | none => none
                   | some ys => some (.varr ys)
                 | _ => none
               else some .vnull) := rfl

theorem initFieldG_hasManyBy (recur : ModelDef → Option Val → Option Val)
    (reg : Registry) (muts : List (String × (Val → Val))) (k : String)
    (mref : ModelRef) (fk ok : String) (po : Bool) (u : Val) :
    initFieldG recur reg muts k (.hasManyBy mref fk ok u po) =
      (if u.isNullV then some .vnull
       else if isNum u then some .vnull
       else
         match index0 u with
         | none => none
         | some w0 =>
           if isNum w0 then some .vnull
           else
             match resolveRelation reg (.hasManyBy mref fk ok u po) with
             | none => none
             | some m =>
               if truthy u then
                 match u with
                 | .varr l =>
                   match mapInst (recur m) l with
                   | none => none
                   | some ys => some (.varr ys)
                 | _ => none
               else some .vnull) := rfl

theorem resolve_hasOne_byName (reg : Registry) (s fk : String) (u : Val) :
    resolveRelation reg (.hasOne (.byName s) fk u false) = lookupReg reg s := rfl

theorem resolve_belongsTo_byName (reg : Registry) (s fk : String) (u : Val) :
    resolveRelation reg (.belongsTo (.byName s) fk u false) = lookupReg reg s := rfl

theorem resolve_hasMany_byName (reg : Registry) (s fk : String) (u : Val) :
    resolveRelation reg (.hasMany (.byName s) fk u false) = lookupReg reg s := rfl

theorem resolve_hasManyBy_byName (reg : Registry) (s fk ok : String) (u : Val) :
    resolveRelation reg (.hasManyBy (.byName s) fk ok u false) = lookupReg reg s := rfl

theorem initFieldG_attr_plain (recur : ModelDef → Option Val → Option Val)
    (reg : Registry) (k : String) (v : Val) :
    initFieldG recur reg [] k (.attr v none) = some v := by
  cases v <;> rfl

theorem initFieldG_setValue_null (recur : ModelDef → Option Val → Option Val)
    (reg : Registry) (muts : List (String × (Val → Val))) (k : String) (a : Attrs) :
    initFieldG recur reg muts k (a.setValue .vnull) = some .vnull := by
  cases a <;> rfl

theorem initFieldG_hasOne_inv (recur : ModelDef → Option Val → Option Val)
    (reg : Registry) (muts : List (String × (Val → Val))) (k s fk : String)
    (d v : Val)
    (h : initFieldG recur reg muts k (.hasOne (.byName s) fk d false) = some v) :
    v = .vnull ∨ (∃ m, lookupReg reg s = some m ∧ truthy d = true
      ∧ recur m (some d) = some v) := by
  rw [initFieldG_hasOne] at h
  by_cases hd : d.isNullV = true
  · rw [if_pos hd] at h; cases h; exact Or.inl rfl
  · rw [if_neg hd] at h
    by_cases hnum : isNum d = true
    · rw [if_pos hnum] at h; cases h; exact Or.inl rfl
    · rw [if_neg hnum] at h
      cases hidx : index0 d with
      | none => rw [hidx] at h; cases h
      | some w0 =>
        rw [hidx] at h
        dsimp only at h
        by_cases hw0 : isNum w0 = true
        · rw [if_pos hw0] at h; cases h; exact Or.inl rfl
        · rw [if_neg hw0, resolve_hasOne_byName] at h
          cases hres : lookupReg reg s with
          | none => rw [hres] at h; cases h
          | some m =>
            rw [hres] at h
            dsimp only at h
            by_cases ht : truthy d = true
            · rw [if_pos ht] at h
              exact Or.inr ⟨m, rfl, ht, h⟩
            · rw [if_neg ht] at h; cases h; exact Or.inl rfl

theorem initFieldG_belongsTo_inv (recur : ModelDef → Option Val → Option Val)
    (reg : Registry) (muts : List (String × (Val → Val))) (k s fk : String)
    (d v : Val)
    (h : initFieldG recur reg muts k (.belongsTo (.byName s) fk d false) = some v) :
    v = .vnull ∨ (∃ m, lookupReg reg s = some m ∧ truthy d = true
      ∧ recur m (some d) = some v) := by
  rw [initFieldG_belongsTo] at h
  by_cases hd : d.isNullV = true
  · rw [if_pos hd] at h; cases h; exact Or.inl rfl
  · rw [if_neg hd] at h
    by_cases hnum : isNum d = true
    · rw [if_pos hnum] at h; cases h; exact Or.inl rfl
    · rw [if_neg hnum] at h
      cases hidx : index0 d with
      | none => rw [hidx] at h; cases h
      | some w0 =>
        rw [hidx] at h
        dsimp only at h
        by_cases hw0 : isNum w0 = true
        · rw [if_pos hw0] at h; cases h; exact Or.inl rfl
        · rw [if_neg hw0, resolve_belongsTo_byName] at h
          cases hres : lookupReg reg s with
          | none => rw [hres] at h; cases h
          | some m =>
            rw [hres] at h
            dsimp only at h
            by_cases ht : truthy d = true
            · rw [if_pos ht] at h
              exact Or.inr ⟨m, rfl, ht, h⟩
            · rw [if_neg ht] at h; cases h; exact Or.inl rfl

theorem initFieldG_hasMany_inv (recur : ModelDef → Option Val → Option Val)
    (reg : Registry) (muts : List (String × (Val → Val))) (k s fk : String)
    (d v : Val)
    (h : initFieldG recur reg muts k (.hasMany (.byName s) fk d false) = some v) :
    v = .vnull ∨ (∃ m l ys, lookupReg reg s = some m ∧ truthy d = true
      ∧ d = .varr l ∧ mapInst (recur m) l = some ys ∧ v = .varr ys) := by
  rw [initFieldG_hasMany] at h
  by_cases hd : d.isNullV = true
  · rw [if_pos hd] at h; cases h; exact Or.inl rfl
  · rw [if_neg hd] at h
    by_cases hnum : isNum d = true
    · rw [if_pos hnum] at h; cases h; exact Or.inl rfl
    · rw [if_neg hnum] at h
      cases hidx : index0 d with
      | none => rw [hidx] at h; cases h
      | some w0 =>
        rw [hidx] at h
        dsimp only at h
        by_cases hw0 : isNum w0 = true
        · rw [if_pos hw0] at h; cases h; exact Or.inl rfl
        · rw [if_neg hw0, resolve_hasMany_byName] at h
          cases hres : lookupReg reg s with
          | none => rw [hres] at h; cases h
          | some m =>
            rw [hres] at h
            dsimp only at h
            by_cases ht : truthy d = true
            · rw [if_pos ht] at h
              cases d with
              | varr l =>
                dsimp only at h
                cases hmi : mapInst (recur m) l with
                | none => rw [hmi] at h; cases h
                | some ys =>
                  rw [hmi] at h
                  cases h
                  exact Or.inr ⟨m, l, ys, rfl, ht, rfl, hmi, rfl⟩
              | vnull => cases h
              | vundefined => cases h
              | vnum a => cases h
              | vstr a => cases h
              | vbool a => cases h
              | vobj a => cases h
              | vinst a b => cases h
            · rw [if_neg ht] at h; cases h; exact Or.inl rfl

theorem initFieldG_hasManyBy_inv (recur : ModelDef → Option Val → Option Val)
    (reg : Registry) (muts : List (String × (Val → Val))) (k s fk ok : String)
    (d v : Val)
    (h : initFieldG recur reg muts k (.hasManyBy (.byName s) fk ok d false) = some v) :
    v = .vnull ∨ (∃ m l ys, lookupReg reg s = some m ∧ truthy d = true
      ∧ d = .varr l ∧ mapInst (recur m) l = some ys ∧ v = .varr ys) := by
  rw [initFieldG_hasManyBy] at h
  by_cases hd : d.isNullV = true
  · rw [if_pos hd] at h; cases h; exact Or.inl rfl
  · rw [if_neg hd] at h
    by_cases hnum : isNum d = true
    · rw [if_pos hnum] at h; cases h; exact Or.inl rfl
    · rw [if_neg hnum] at h
      cases hidx : index0 d with
      | none => rw [hidx] at h; cases h
      | some w0 =>
        rw [hidx] at h
        dsimp only at h
        by_cases hw0 : isNum w0 = true
        · rw [if_pos hw0] at h; cases h; exact Or.inl rfl
        · rw [if_neg hw0, resolve_hasManyBy_byName] at h
          cases hres : lookupReg reg s with
          | none => rw [hres] at h; cases h
          | some m =>
            rw [hres] at h
            dsimp only at h
            by_cases ht : truthy d = true
            · rw [if_pos ht] at h
              cases d with
              | varr l =>
                dsimp only at h
                cases hmi : mapInst (recur m) l with
                | none => rw [hmi] at h; cases h
                | some ys =>
                  rw [hmi] at h
                  cases h
                  exact Or.inr ⟨m, l, ys, rfl, ht, rfl, hmi, rfl⟩
              | vnull => cases h
              | vundefined => cases h
              | vnum a => cases h
              | vstr a => cases h
              | vbool a => cases h
              | vobj a => cases h
              | vinst a b => cases h
            · rw [if_neg ht] at h; cases h; exact Or.inl rfl

theorem initFieldG_hasOne_inst (recur : ModelDef → Option Val → Option Val)
    (reg : Registry) (muts : List (String × (Val → Val))) (k s fk e : String)
    (vprops : List (String × Val)) (m : ModelDef)
    (hres : lookupReg reg s = some m) (h0 : hasKey vprops "0" = false) :
    initFieldG recur reg muts k (.hasOne (.byName s) fk (.vinst e vprops) false)
      = recur m (some (.vinst e vprops)) := by
  rw [initFieldG_hasOne]
  simp [Val.isNullV, isNum, index0, truthy, falsyV,
    getv_of_not_hasKey vprops "0" h0, resolve_hasOne_byName, hres]

theorem initFieldG_belongsTo_inst (recur : ModelDef → Option Val → Option Val)
    (reg : Registry) (muts : List (String × (Val → Val))) (k s fk e : String)
    (vprops : List (String × Val)) (m : ModelDef)
    (hres : lookupReg reg s = some m) (h0 : hasKey vprops "0" = false) :
    initFieldG recur reg muts k (.belongsTo (.byName s) fk (.vinst e vprops) false)
      = recur m (some (.vinst e vprops)) := by
  rw [initFieldG_belongsTo]
  simp [Val.isNullV, isNum, index0, truthy, falsyV,
    getv_of_not_hasKey vprops "0" h0, resolve_belongsTo_byName, hres]

theorem initFieldG_hasOne_obj (recur : ModelDef → Option Val → Option Val)
    (reg : Registry) (muts : List (String × (Val → Val))) (k s fk : String)
    (wkvs : List (String × Val)) (m : ModelDef)
    (hres : lookupReg reg s = some m) (h0 : hasKey wkvs "0" = false) :
    initFieldG recur reg muts k (.hasOne (.byName s) fk (.vobj wkvs) false)
      = recur m (some (.vobj wkvs)) := by
  rw [initFieldG_hasOne]
  simp [Val.isNullV, isNum, index0, truthy, falsyV,
    getv_of_not_hasKey wkvs "0" h0, resolve_hasOne_byName, hres]

theorem initFieldG_belongsTo_obj (recur : ModelDef → Option Val → Option Val)
    (reg : Registry) (muts : List (String × (Val → Val))) (k s fk : String)
    (wkvs : List (String × Val)) (m : ModelDef)
    (hres : lookupReg reg s = some m) (h0 : hasKey wkvs "0" = false) :
    initFieldG recur reg muts k (.belongsTo (.byName s) fk (.vobj wkvs) false)
      = recur m (some (.vobj wkvs)) := by
  rw [initFieldG_belongsTo]
  simp [Val.isNullV, isNum, index0, truthy, falsyV,
    getv_of_not_hasKey wkvs "0" h0, resolve_belongsTo_byName, hres]

theorem initFieldG_hasMany_arr (recur : ModelDef → Option Val → Option Val)
    (reg : Registry) (muts : List (String × (Val → Val))) (k s fk : String)
    (ws : List Val) (m : ModelDef)
    (hres : lookupReg reg s = some m)
    (hh : isNum (ws.headD .vundefined) = false) :
    initFieldG recur reg muts k (.hasMany (.byName s) fk (.varr ws) false)
      = (match mapInst (recur m) ws with
         | none => none
         | some ys => some (.varr ys)) := by
  rw [initFieldG_hasMany]
  have hh2 : (match ws.head?.getD Val.vundefined with
      | Val.vnum a => true
      | x => false) = false := by cases ws <;> exact hh
  simp [Val.isNullV, isNum, index0, truthy, falsyV, resolve_hasMany_byName, hres, hh2]

theorem initFieldG_hasManyBy_arr (recur : ModelDef → Option Val → Option Val)
    (reg : Registry) (muts : List (String × (Val → Val))) (k s fk ok : String)
    (ws : List Val) (m : ModelDef)
    (hres : lookupReg reg s = some m)
    (hh : isNum (ws.headD .vundefined) = false) :
    initFieldG recur reg muts k (.hasManyBy (.byName s) fk ok (.varr ws) false)
      = (match mapInst (recur m) ws with
         | none => none
         | some ys => some (.varr ys)) := by
  rw [initFieldG_hasManyBy]
  have hh2 : (match ws.head?.getD Val.vundefined with
      | Val.vnum a => true
      | x => false) = false := by cases ws <;> exact hh
  simp [Val.isNullV, isNum, index0, truthy, falsyV, resolve_hasManyBy_byName, hres, hh2]

theorem serializeField_falsy (recur : Val → Option Val) (a : Attrs) (v : Val)
    (ht : truthy v = false) : serializeField recur a v = some v := by
  unfold serializeField
  rw [ht]
  rfl

theorem serializeField_attr (recur : Val → Option Val) (dv : Val)
    (m : Option (Val → Val)) (v : Val) :
    serializeField recur (.attr dv m) v = some v := by
  unfold serializeField
  by_cases ht : truthy v = true
  · simp [ht]
  · simp [ht]

theorem serializeField_hasManyBy (recur : Val → Option Val)
    (mref : ModelRef) (fk ok : String) (dv : Val) (po : Bool) (v : Val) :
    serializeField recur (.hasManyBy mref fk ok dv po) v = some v := by
  unfold serializeField
  by_cases ht : truthy v = true
  · simp [ht]
  · simp [ht]

theorem serializeField_hasOne_truthy (recur : Val → Option Val)
    (mref : ModelRef) (fk : String) (dv : Val) (po : Bool) (v : Val)
    (ht : truthy v = true) :
    serializeField recur (.hasOne mref fk dv po) v = recur v := by
  unfold serializeField
  simp [ht]

theorem serializeField_belongsTo_truthy (recur : Val → Option Val)
    (mref : ModelRef) (fk : String) (dv : Val) (po : Bool) (v : Val)
    (ht : truthy v = true) :
    serializeField recur (.belongsTo mref fk dv po) v = recur v := by
  unfold serializeField
  simp [ht]

theorem serializeField_hasMany_arr (recur : Val → Option Val)
    (mref : ModelRef) (fk : String) (dv : Val) (po : Bool) (ys : List Val) :
    serializeField recur (.hasMany mref fk dv po) (.varr ys)
      = (match mapInst (fun x => x.bind recur) ys with
         | none => none
         | some ws => some (.varr ws)) := by
  unfold serializeField
  simp [truthy, falsyV]

theorem forall2_chain {α β γ : Type _} {R1 : α → β → Prop} {R2 : β → γ → Prop}
    {R3 : γ → β → Prop} (h : ∀ a b c, R1 a b → R2 b c → R3 c b) :
    ∀ {l1 : List α} {l2 : List β} {l3 : List γ},
      List.Forall₂ R1 l1 l2 → List.Forall₂ R2 l2 l3 → List.Forall₂ R3 l3 l2 := by
  intro l1 l2 l3 h12 h23
  induction h12 generalizing l3 with
  | nil => cases h23; exact List.Forall₂.nil
  | cons hab htl ih =>
    cases h23 with
    | cons hbc htl2 => exact List.Forall₂.cons (h _ _ _ hab hbc) (ih htl2)

theorem forall2_diag {α β : Type _} {R1 : α → β → Prop} {R3 : β → β → Prop}
    (h : ∀ a b, R1 a b → R3 b b) :
    ∀ {l1 : List α} {l2 : List β}, List.Forall₂ R1 l1 l2 → List.Forall₂ R3 l2 l2 := by
  intro l1 l2 h12
  induction h12 with
  | nil => exact List.Forall₂.nil
  | cons hab htl ih => exact List.Forall₂.cons (h _ _ hab) ih

/-- Re-assigning a field from its own instantiated property value
reproduces that value (the per-field heart of instantiate-idempotence). -/
theorem fieldID (reg : Registry) (hreg : regWF reg) (n : Nat)
    (IHid : ∀ (E : ModelDef) (P i : Val), modelWF E →
      instantiate reg n E (some P) = some i →
      instantiate reg n E (some i) = some i)
    (k : String) (a0 : Attrs) (hwf : attrWF a0 = true) (d v : Val)
    (h1 : initFieldG (fun M2 dd => instantiate reg n M2 dd) reg [] k
      (a0.setValue d) = some v) :
    initFieldG (fun M2 dd => instantiate reg n M2 dd) reg [] k
      (a0.setValue v) = some v := by
  cases a0 with
  | attr dv m =>
    have hm : m = none := by
      cases m with
      | none => rfl
      | some f => simp [attrWF] at hwf
    subst hm
    have h1b : some d = some v :=
      (initFieldG_attr_plain (fun M2 dd => instantiate reg n M2 dd) reg k d).symm.trans h1
    cases h1b
    exact initFieldG_attr_plain (fun M2 dd => instantiate reg n M2 dd) reg k d
  | hasOne mref fk dv po =>
    cases mref with
    | direct m0 => simp [attrWF] at hwf
    | byName s =>
      cases po with
      | true => simp [attrWF] at hwf
      | false =>
        rcases initFieldG_hasOne_inv (fun M2 dd => instantiate reg n M2 dd)
          reg [] k s fk d v h1 with hv | ⟨m, hres, ht, hrec⟩
        · subst hv
          exact initFieldG_setValue_null _ reg [] k _
        · obtain ⟨hwfm, hlm⟩ := regWF_lookup reg s m hreg hres
          obtain ⟨vprops, hv, hkeys⟩ := instantiate_shape reg n m (some d) v hrec
          subst hv
          have h0 : hasKey vprops "0" = false := by
            apply not_mem_hasKey_false
            rw [hkeys]
            exact hwfm.2.1
          exact (initFieldG_hasOne_inst (fun M2 dd => instantiate reg n M2 dd)
            reg [] k s fk m.entity vprops m hres h0).trans
            (IHid m d (.vinst m.entity vprops) hwfm hrec)
  | belongsTo mref fk dv po =>
    cases mref with
    | direct m0 => simp [attrWF] at hwf
    | byName s =>
      cases po with
      | true => simp [attrWF] at hwf
      | false =>
        rcases initFieldG_belongsTo_inv (fun M2 dd => instantiate reg n M2 dd)
          reg [] k s fk d v h1 with hv | ⟨m, hres, ht, hrec⟩
        · subst hv
          exact initFieldG_setValue_null _ reg [] k _
        · obtain ⟨hwfm, hlm⟩ := regWF_lookup reg s m hreg hres
          obtain ⟨vprops, hv, hkeys⟩ := instantiate_shape reg n m (some d) v hrec
          subst hv
          have h0 : hasKey vprops "0" = false := by
            apply not_mem_hasKey_false
            rw [hkeys]
            exact hwfm.2.1
          exact (initFieldG_belongsTo_inst (fun M2 dd => instantiate reg n M2 dd)
            reg [] k s fk m.entity vprops m hres h0).trans
            (IHid m d (.vinst m.entity vprops) hwfm hrec)
  | hasMany mref fk dv po =>
    cases mref with
    | direct m0 => simp [attrWF] at hwf
    | byName s =>
      cases po with
      | true => simp [attrWF] at hwf
      | false =>
        rcases initFieldG_hasMany_inv (fun M2 dd => instantiate reg n M2 dd)
          reg [] k s fk d v h1 with hv | ⟨m, l, ys, hres, ht, hdeq, hmi, hveq⟩
        · subst hv
          exact initFieldG_setValue_null _ reg [] k _
        · subst hveq
          obtain ⟨hwfm, hlm⟩ := regWF_lookup reg s m hreg hres
          have F1 := mapInst_forall2 _ l ys hmi
          have hh : isNum (ys.headD .vundefined) = false := by
            cases F1 with
            | nil => rfl
            | cons hxy htl =>
              obtain ⟨p0, hy0, _⟩ := instantiate_shape reg n m _ _ hxy
              subst hy0
              rfl
          have hdiag : List.Forall₂
              (fun y y2 => (fun M2 dd => instantiate reg n M2 dd) m (some y) = some y2)
              ys ys :=
            forall2_diag (fun x y hxy => IHid m x y hwfm hxy) F1
          have hys : mapInst ((fun M2 dd => instantiate reg n M2 dd) m) ys = some ys :=
            forall2_mapInst _ ys ys hdiag
          refine (initFieldG_hasMany_arr (fun M2 dd => instantiate reg n M2 dd)
            reg [] k s fk ys m hres hh).trans ?_
          rw [hys]
  | hasManyBy mref fk ok dv po =>
    cases mref with
    | direct m0 => simp [attrWF] at hwf
    | byName s =>
      cases po with
      | true => simp [attrWF] at hwf
      | false =>
        rcases initFieldG_hasManyBy_inv (fun M2 dd => instantiate reg n M2 dd)
          reg [] k s fk ok d v h1 with hv | ⟨m, l, ys, hres, ht, hdeq, hmi, hveq⟩
        · subst hv
          exact initFieldG_setValue_null _ reg [] k _
        · subst hveq
          obtain ⟨hwfm, hlm⟩ := regWF_lookup reg s m hreg hres
          have F1 := mapInst_forall2 _ l ys hmi
          have hh : isNum (ys.headD .vundefined) = false := by
            cases F1 with
            | nil => rfl
            | cons hxy htl =>
              obtain ⟨p0, hy0, _⟩ := instantiate_shape reg n m _ _ hxy
              rw [hy0]
              rfl
          have hdiag : List.Forall₂
              (fun y y2 => (fun M2 dd => instantiate reg n M2 dd) m (some y) = some y2)
              ys ys :=
            forall2_diag (fun x y hxy => IHid m x y hwfm hxy) F1
          have hys : mapInst ((fun M2 dd => instantiate reg n M2 dd) m) ys = some ys :=
            forall2_mapInst _ ys ys hdiag
          refine (initFieldG_hasManyBy_arr (fun M2 dd => instantiate reg n M2 dd)
            reg [] k s fk ok ys m hres hh).trans ?_
          rw [hys]

/-- Re-assigning a field from the serialized form of its instantiated
property value reproduces that value (the per-field heart of the round
trip). -/
theorem fieldRT (reg : Registry) (hreg : regWF reg) (n : Nat)
    (IHrt : ∀ (E : ModelDef) (P i j : Val), modelWF E →
      lookupReg reg E.entity = some E →
      instantiate reg n E (some P) = some i →
      toJson reg n i = some j →
      instantiate reg n E (some j) = some i)
    (IHid : ∀ (E : ModelDef) (P i : Val), modelWF E →
      instantiate reg n E (some P) = some i →
      instantiate reg n E (some i) = some i)
    (k : String) (a0 : Attrs) (hwf : attrWF a0 = true) (d v w : Val)
    (h1 : initFieldG (fun M2 dd => instantiate reg n M2 dd) reg [] k
      (a0.setValue d) = some v)
    (hs : serializeField (fun x => toJson reg n x) a0 v = some w) :
    initFieldG (fun M2 dd => instantiate reg n M2 dd) reg [] k
      (a0.setValue w) = some v := by
  cases a0 with
  | attr dv m =>
    have hm : m = none := by
      cases m with
      | none => rfl
      | some f => simp [attrWF] at hwf
    subst hm
    have h1b : some d = some v :=
      (initFieldG_attr_plain (fun M2 dd => instantiate reg n M2 dd) reg k d).symm.trans h1
    cases h1b
    have hsw : some d = some w :=
      (serializeField_attr (fun x => toJson reg n x) dv none d).symm.trans hs
    cases hsw
    exact initFieldG_attr_plain (fun M2 dd => instantiate reg n M2 dd) reg k d
  | hasOne mref fk dv po =>
    cases mref with
    | direct m0 => simp [attrWF] at hwf
    | byName s =>
      cases po with
      | true => simp [attrWF] at hwf
      | false =>
        rcases initFieldG_hasOne_inv (fun M2 dd => instantiate reg n M2 dd)
          reg [] k s fk d v h1 with hv | ⟨m, hres, ht, hrec⟩
        · subst hv
          have hsw : some Val.vnull = some w :=
            (serializeField_falsy (fun x => toJson reg n x)
              (.hasOne (.byName s) fk dv false) .vnull rfl).symm.trans hs
          cases hsw
          exact initFieldG_setValue_null _ reg [] k _
        · obtain ⟨hwfm, hlm⟩ := regWF_lookup reg s m hreg hres
          obtain ⟨vprops, hv, hkeys⟩ := instantiate_shape reg n m (some d) v hrec
          subst hv
          have hsw : toJson reg n (.vinst m.entity vprops) = some w :=
            (serializeField_hasOne_truthy (fun x => toJson reg n x)
              (.byName s) fk dv false (.vinst m.entity vprops) rfl).symm.trans hs
          obtain ⟨n2, e2, props2, wkvs, M2, hn2, hx, hl2, hser, hw⟩ :=
            toJson_inv reg n _ w hsw
          cases hx
          have hM2 : M2 = m := Option.some.inj (hl2.symm.trans hlm)
          subst hM2
          subst hw
          have hwkeys : wkvs.map Prod.fst = M2.fields.map Prod.fst :=
            serializeFields_keys _ _ _ _ hser
          have h0 : hasKey wkvs "0" = false := by
            apply not_mem_hasKey_false
            rw [hwkeys]
            exact hwfm.2.1
          exact (initFieldG_hasOne_obj (fun M2 dd => instantiate reg n M2 dd)
            reg [] k s fk wkvs M2 hres h0).trans
            (IHrt M2 d (.vinst M2.entity vprops) (.vobj wkvs) hwfm hlm hrec hsw)
  | belongsTo mref fk dv po =>
    cases mref with
    | direct m0 => simp [attrWF] at hwf
    | byName s =>
      cases po with
      | true => simp [attrWF] at hwf
      | false =>
        rcases initFieldG_belongsTo_inv (fun M2 dd => instantiate reg n M2 dd)
          reg [] k s fk d v h1 with hv | ⟨m, hres, ht, hrec⟩
        · subst hv
          have hsw : some Val.vnull = some w :=
            (serializeField_falsy (fun x => toJson reg n x)
              (.belongsTo (.byName s) fk dv false) .vnull rfl).symm.trans hs
          cases hsw
          exact initFieldG_setValue_null _ reg [] k _
        · obtain ⟨hwfm, hlm⟩ := regWF_lookup reg s m hreg hres
          obtain ⟨vprops, hv, hkeys⟩ := instantiate_shape reg n m (some d) v hrec
          subst hv
          have hsw : toJson reg n (.vinst m.entity vprops) = some w :=
            (serializeField_belongsTo_truthy (fun x => toJson reg n x)
              (.byName s) fk dv false (.vinst m.entity vprops) rfl).symm.trans hs
          obtain ⟨n2, e2, props2, wkvs, M2, hn2, hx, hl2, hser, hw⟩ :=
            toJson_inv reg n _ w hsw
          cases hx
          have hM2 : M2 = m := Option.some.inj (hl2.symm.trans hlm)
          subst hM2
          subst hw
          have hwkeys : wkvs.map Prod.fst = M2.fields.map Prod.fst :=
            serializeFields_keys _ _ _ _ hser
          have h0 : hasKey wkvs "0" = false := by
            apply not_mem_hasKey_false
            rw [hwkeys]
            exact hwfm.2.1
          exact (initFieldG_belongsTo_obj (fun M2 dd => instantiate reg n M2 dd)
            reg [] k s fk wkvs M2 hres h0).trans
            (IHrt M2 d (.vinst M2.entity vprops) (.vobj wkvs) hwfm hlm hrec hsw)
  | hasMany mref fk dv po =>
    cases mref with
    | direct m0 => simp [attrWF] at hwf
    | byName s =>
      cases po with
      | true => simp [attrWF] at hwf
      | false =>
        rcases initFieldG_hasMany_inv (fun M2 dd => instantiate reg n M2 dd)
          reg [] k s fk d v h1 with hv | ⟨m, l, ys, hres, ht, hdeq, hmi, hveq⟩
        · subst hv
          have hsw : some Val.vnull = some w :=
            (serializeField_falsy (fun x => toJson reg n x)
              (.hasMany (.byName s) fk dv false) .vnull rfl).symm.trans hs
          cases hsw
          exact initFieldG_setValue_null _ reg [] k _
        · subst hveq
          obtain ⟨hwfm, hlm⟩ := regWF_lookup reg s m hreg hres
          have hs2 : (match mapInst (fun x => x.bind (fun z => toJson reg n z)) ys with
              | none => none
              | some ws => some (Val.varr ws)) = some w :=
            (serializeField_hasMany_arr (fun x => toJson reg n x)
              (.byName s) fk dv false ys).symm.trans hs
          cases hw2 : mapInst (fun x => x.bind (fun z => toJson reg n z)) ys with
          | none => rw [hw2] at hs2; cases hs2
          | some ws =>
            rw [hw2] at hs2
            cases hs2
            have F1 := mapInst_forall2 _ l ys hmi
            have F2 := mapInst_forall2 _ ys ws hw2
            have hh : isNum (ws.headD .vundefined) = false := by
              cases F2 with
              | nil => rfl
              | cons hyw htl =>
                obtain ⟨n3, e3, p3, kvs3, M3, _, _, _, _, hw3⟩ :=
                  toJson_inv reg n _ _ hyw
                subst hw3
                rfl
            have hchain : List.Forall₂
                (fun w2 y => (fun M2 dd => instantiate reg n M2 dd) m (some w2) = some y)
                ws ys :=
              forall2_chain (fun x y w2 hxy hyw =>
                IHrt m x y w2 hwfm hlm hxy hyw) F1 F2
            have hws : mapInst ((fun M2 dd => instantiate reg n M2 dd) m) ws = some ys :=
              forall2_mapInst _ ws ys hchain
            refine (initFieldG_hasMany_arr (fun M2 dd => instantiate reg n M2 dd)
              reg [] k s fk ws m hres hh).trans ?_
            rw [hws]
  | hasManyBy mref fk ok dv po =>
    cases mref with
    | direct m0 => simp [attrWF] at hwf
    | byName s =>
      cases po with
      | true => simp [attrWF] at hwf
      | false =>
        rcases initFieldG_hasManyBy_inv (fun M2 dd => instantiate reg n M2 dd)
          reg [] k s fk ok d v h1 with hv | ⟨m, l, ys, hres, ht, hdeq, hmi, hveq⟩
        · subst hv
          have hsw : some Val.vnull = some w :=
            (serializeField_falsy (fun x => toJson reg n x)
              (.hasManyBy (.byName s) fk ok dv false) .vnull rfl).symm.trans hs
          cases hsw
          exact initFieldG_setValue_null _ reg [] k _
        · subst hveq
          obtain ⟨hwfm, hlm⟩ := regWF_lookup reg s m hreg hres
          have hsw : some (Val.varr ys) = some w :=
            (serializeField_hasManyBy (fun x => toJson reg n x)
              (.byName s) fk ok dv false (.varr ys)).symm.trans hs
          cases hsw
          have F1 := mapInst_forall2 _ l ys hmi
          have hh : isNum (ys.headD .vundefined) = false := by
            cases F1 with
            | nil => rfl
            | cons hxy htl =>
              obtain ⟨p0, hy0, _⟩ := instantiate_shape reg n m _ _ hxy
              subst hy0
              rfl
          have hdiag : List.Forall₂
              (fun y y2 => (fun M2 dd => instantiate reg n M2 dd) m (some y) = some y2)
              ys ys :=
            forall2_diag (fun x y hxy => IHid m x y hwfm hxy) F1
          have hys : mapInst ((fun M2 dd => instantiate reg n M2 dd) m) ys = some ys :=
            forall2_mapInst _ ys ys hdiag
          refine (initFieldG_hasManyBy_arr (fun M2 dd => instantiate reg n M2 dd)
            reg [] k s fk ok ys m hres hh).trans ?_
          rw [hys]

theorem contains_of_mem {l : List String} {a : String} (h : a ∈ l) :
    l.contains a = true := by
  induction l with
  | nil => cases h
  | cons b rest ih =>
    rcases List.mem_cons.mp h with rfl | h2
    · simp [List.contains_cons]
    · simp only [List.contains_cons, ih h2, Bool.or_true]

theorem map_fst_map_setValue (fl : List (String × Attrs)) (g : String → Val → Val) :
    (fl.map (fun e => (e.1, e.2.setValue (g e.1 e.2.getValue)))).map Prod.fst
      = fl.map Prod.fst := by
  rw [List.map_map]
  exact List.map_congr_left fun e _ => rfl

theorem initFieldsG_cons_eq (recur : ModelDef → Option Val → Option Val)
    (reg : Registry) (muts : List (String × (Val → Val))) (k : String) (a : Attrs)
    (rest : List (String × Attrs)) (v : Val) (vs : List (String × Val))
    (h1 : initFieldG recur reg muts k a = some v)
    (h2 : initFieldsG recur reg muts rest = some vs) :
    initFieldsG recur reg muts ((k, a) :: rest) = some ((k, v) :: vs) := by
  simp [initFieldsG, h1, h2]

theorem initFieldsG_cons_inv (recur : ModelDef → Option Val → Option Val)
    (reg : Registry) (muts : List (String × (Val → Val))) (k : String) (a : Attrs)
    (rest : List (String × Attrs)) (out : List (String × Val))
    (h : initFieldsG recur reg muts ((k, a) :: rest) = some out) :
    ∃ v vs, initFieldG recur reg muts k a = some v
      ∧ initFieldsG recur reg muts rest = some vs ∧ out = (k, v) :: vs := by
  simp only [initFieldsG] at h
  cases hv : initFieldG recur reg muts k a with
  | none => rw [hv] at h; cases h
  | some v =>
    rw [hv] at h
    dsimp only at h
    cases hvs : initFieldsG recur reg muts rest with
    | none => rw [hvs] at h; cases h
    | some vs =>
      rw [hvs] at h
      dsimp only at h
      cases h
      exact ⟨v, vs, rfl, rfl, rfl⟩

theorem serializeFields_cons_inv (recur : Val → Option Val)
    (props : List (String × Val)) (k : String) (a : Attrs)
    (rest : List (String × Attrs)) (out : List (String × Val))
    (h : serializeFields recur props ((k, a) :: rest) = some out) :
    ∃ w ws, serializeField recur a (getv props k) = some w
      ∧ serializeFields recur props rest = some ws ∧ out = (k, w) :: ws := by
  simp only [serializeFields] at h
  cases hw : serializeField recur a (getv props k) with
  | none => rw [hw] at h; cases h
  | some w =>
    rw [hw] at h
    dsimp only at h
    cases hws : serializeFields recur props rest with
    | none => rw [hws] at h; cases h
    | some ws =>
      rw [hws] at h
      dsimp only at h
      cases h
      exact ⟨w, ws, rfl, rfl, rfl⟩

theorem merged_map_form (fields : List (String × Attrs)) (data : Option Val) :
    ∃ g : String → Val → Val,
      mergeFields fields data
        = fields.map (fun e => (e.1, e.2.setValue (g e.1 e.2.getValue))) := by
  cases data with
  | none =>
    exact ⟨fun k d => mvg (fields.map Prod.fst) [] k d,
      mergeFoldK (fields.map Prod.fst) [] fields⟩
  | some d =>
    by_cases hf : falsyV d = true
    · refine ⟨fun k dd => mvg (fields.map Prod.fst) [] k dd, ?_⟩
      show (if falsyV d = true then fields else _) = _
      rw [if_pos hf]
      exact mergeFoldK (fields.map Prod.fst) [] fields
    · cases d with
      | vobj kvs =>
        refine ⟨fun k dd => mvg (fields.map Prod.fst) kvs k dd, ?_⟩
        show (if falsyV (.vobj kvs) = true then fields else mergeEntries fields kvs) = _
        rw [if_neg hf]
        exact mergeEntries_eq_map fields kvs
      | vinst e props =>
        refine ⟨fun k dd => mvg (fields.map Prod.fst) props k dd, ?_⟩
        show (if falsyV (.vinst e props) = true then fields
          else mergeEntries fields props) = _
        rw [if_neg hf]
        exact mergeEntries_eq_map fields props
      | vnull => exact absurd rfl hf
      | vundefined => exact absurd rfl hf
      | vnum m =>
        refine ⟨fun k dd => mvg (fields.map Prod.fst) [] k dd, ?_⟩
        show (if falsyV (.vnum m) = true then fields else fields) = _
        rw [if_neg hf]
        exact mergeFoldK (fields.map Prod.fst) [] fields
      | vstr s =>
        refine ⟨fun k dd => mvg (fields.map Prod.fst) [] k dd, ?_⟩
        show (if falsyV (.vstr s) = true then fields else fields) = _
        rw [if_neg hf]
        exact mergeFoldK (fields.map Prod.fst) [] fields
      | vbool b =>
        refine ⟨fun k dd => mvg (fields.map Prod.fst) [] k dd, ?_⟩
        show (if falsyV (.vbool b) = true then fields else fields) = _
        rw [if_neg hf]
        exact mergeFoldK (fields.map Prod.fst) [] fields
      | varr l =>
        refine ⟨fun k dd => mvg (fields.map Prod.fst) [] k dd, ?_⟩
        show (if falsyV (.varr l) = true then fields else fields) = _
        rw [if_neg hf]
        exact mergeFoldK (fields.map Prod.fst) [] fields

theorem fieldsID_walk (reg : Registry) (hreg : regWF reg) (n : Nat)
    (IHid : ∀ (E : ModelDef) (P i : Val), modelWF E →
      instantiate reg n E (some P) = some i →
      instantiate reg n E (some i) = some i) :
    ∀ (fl : List (String × Attrs)) (g : String → Val → Val)
      (props : List (String × Val)),
      (fl.map Prod.fst).Nodup →
      (∀ e ∈ fl, attrWF e.2 = true) →
      initFieldsG (fun M2 dd => instantiate reg n M2 dd) reg []
        (fl.map (fun e => (e.1, e.2.setValue (g e.1 e.2.getValue)))) = some props →
      initFieldsG (fun M2 dd => instantiate reg n M2 dd) reg []
        (fl.map (fun e => (e.1, e.2.setValue (getv props e.1)))) = some props := by
  intro fl
  induction fl with
  | nil =>
    intro g props _ _ h
    cases h
    rfl
  | cons e fl2 ih =>
    intro g props hnd hwf h
    obtain ⟨k, a0⟩ := e
    rw [List.map_cons] at h
    obtain ⟨v, ptl, hhead, htail, hout⟩ :=
      initFieldsG_cons_inv _ reg [] k _ _ props h
    subst hout
    simp only [List.map_cons, List.nodup_cons] at hnd
    have hknotin : k ∉ fl2.map Prod.fst := hnd.1
    have hgv : getv ((k, v) :: ptl) k = v := by simp [getv]
    have hheadID : initFieldG (fun M2 dd => instantiate reg n M2 dd) reg [] k
        (a0.setValue (getv ((k, v) :: ptl) k)) = some v := by
      rw [hgv]
      exact fieldID reg hreg n IHid k a0
        (hwf (k, a0) (List.mem_cons_self _ _)) (g k a0.getValue) v hhead
    have htailmap : fl2.map (fun e => (e.1, e.2.setValue (getv ((k, v) :: ptl) e.1)))
        = fl2.map (fun e => (e.1, e.2.setValue (getv ptl e.1))) := by
      refine List.map_congr_left ?_
      intro e2 he2
      have hne : e2.1 ≠ k := by
        intro hh
        exact hknotin (hh ▸ List.mem_map.mpr ⟨e2, he2, rfl⟩)
      rw [show getv ((k, v) :: ptl) e2.1 = getv ptl e2.1 from by
        show (if k = e2.1 then v else getv ptl e2.1) = getv ptl e2.1
        rw [if_neg (fun hh => hne hh.symm)]]
    have htailID := ih g ptl hnd.2
      (fun e2 he2 => hwf e2 (List.mem_cons_of_mem _ he2)) htail
    rw [List.map_cons]
    refine initFieldsG_cons_eq _ reg [] k _ _ v ptl hheadID ?_
    rw [htailmap]
    exact htailID

theorem fieldsRT_walk (reg : Registry) (hreg : regWF reg) (n : Nat)
    (IHrt : ∀ (E : ModelDef) (P i j : Val), modelWF E →
      lookupReg reg E.entity = some E →
      instantiate reg n E (some P) = some i →
      toJson reg n i = some j →
      instantiate reg n E (some j) = some i)
    (IHid : ∀ (E : ModelDef) (P i : Val), modelWF E →
      instantiate reg n E (some P) = some i →
      instantiate reg n E (some i) = some i) :
    ∀ (fl : List (String × Attrs)) (g : String → Val → Val)
      (props kvs : List (String × Val)),
      (fl.map Prod.fst).Nodup →
      (∀ e ∈ fl, attrWF e.2 = true) →
      initFieldsG (fun M2 dd => instantiate reg n M2 dd) reg []
        (fl.map (fun e => (e.1, e.2.setValue (g e.1 e.2.getValue)))) = some props →
      serializeFields (fun x => toJson reg n x) props fl = some kvs →
      initFieldsG (fun M2 dd => instantiate reg n M2 dd) reg []
        (fl.map (fun e => (e.1, e.2.setValue (getv kvs e.1)))) = some props := by
  intro fl
  induction fl with
  | nil =>
    intro g props kvs _ _ h hser
    cases h
    rfl
  | cons e fl2 ih =>
    intro g props kvs hnd hwf h hser
    obtain ⟨k, a0⟩ := e
    rw [List.map_cons] at h
    obtain ⟨v, ptl, hhead, htail, hout⟩ :=
      initFieldsG_cons_inv _ reg [] k _ _ props h
    subst hout
    obtain ⟨w, wtl, hserhead, hsertail, hkout⟩ :=
      serializeFields_cons_inv _ _ k a0 fl2 kvs hser
    subst hkout
    simp only [List.map_cons, List.nodup_cons] at hnd
    have hknotin : k ∉ fl2.map Prod.fst := hnd.1
    have hgv : getv ((k, v) :: ptl) k = v := by simp [getv]
    rw [hgv] at hserhead
    have hsertail2 : serializeFields (fun x => toJson reg n x) ptl fl2 = some wtl := by
      rw [← hsertail]
      refine (serializeFields_congr_props _ _ _ fl2 ?_).symm
      intro e2 he2
      have hne : e2.1 ≠ k := by
        intro hh
        exact hknotin (hh ▸ List.mem_map.mpr ⟨e2, he2, rfl⟩)
      rw [show getv ((k, v) :: ptl) e2.1 = getv ptl e2.1 from by
        show (if k = e2.1 then v else getv ptl e2.1) = getv ptl e2.1
        rw [if_neg (fun hh => hne hh.symm)]]
    have hgw : getv ((k, w) :: wtl) k = w := by simp [getv]
    have hheadRT : initFieldG (fun M2 dd => instantiate reg n M2 dd) reg [] k
        (a0.setValue (getv ((k, w) :: wtl) k)) = some v := by
      rw [hgw]
      exact fieldRT reg hreg n IHrt IHid k a0
        (hwf (k, a0) (List.mem_cons_self _ _)) (g k a0.getValue) v w hhead hserhead
    have htailmap : fl2.map (fun e => (e.1, e.2.setValue (getv ((k, w) :: wtl) e.1)))
        = fl2.map (fun e => (e.1, e.2.setValue (getv wtl e.1))) := by
      refine List.map_congr_left ?_
      intro e2 he2
      have hne : e2.1 ≠ k := by
        intro hh
        exact hknotin (hh ▸ List.mem_map.mpr ⟨e2, he2, rfl⟩)
      rw [show getv ((k, w) :: wtl) e2.1 = getv wtl e2.1 from by
        show (if k = e2.1 then w else getv wtl e2.1) = getv wtl e2.1
        rw [if_neg (fun hh => hne hh.symm)]]
    have htailRT := ih g ptl wtl hnd.2
      (fun e2 he2 => hwf e2 (List.mem_cons_of_mem _ he2)) htail hsertail2
    rw [List.map_cons]
    refine initFieldsG_cons_eq _ reg [] k _ _ v ptl hheadRT ?_
    rw [htailmap]
    exact htailRT

/-- The round trip and instantiate-idempotence, proved together by
induction on the fuel. -/
theorem roundtrip_main (reg : Registry) (hreg : regWF reg) :
    ∀ n : Nat,
      (∀ (E : ModelDef) (P i j : Val), modelWF E →
        lookupReg reg E.entity = some E →
        instantiate reg n E (some P) = some i →
        toJson reg n i = some j →
        instantiate reg n E (some j) = some i)
      ∧ (∀ (E : ModelDef) (P i : Val), modelWF E →
        instantiate reg n E (some P) = some i →
        instantiate reg n E (some i) = some i) := by
  intro n
  induction n with
  | zero =>
    constructor
    · intro E P i j _ _ h1
      simp [instantiate] at h1
    · intro E P i _ h1
      simp [instantiate] at h1
  | succ n ihn =>
    obtain ⟨IHrt, IHid⟩ := ihn
    constructor
    · intro E P i j hE hEreg h1 h2
      simp only [instantiate] at h1
      rw [hE.2.2.1] at h1
      cases hinit : initFieldsG (fun M2 d => instantiate reg n M2 d) reg []
          (mergeFields E.fields (some P)) with
      | none => rw [hinit] at h1; cases h1
      | some props =>
        rw [hinit] at h1
        dsimp only at h1
        cases h1
        obtain ⟨n2, e2, props2, kvs, M2, hn2, hx, hl2, hser, hj⟩ :=
          toJson_inv reg (n + 1) _ j h2
        cases hx
        have hMe : some E = some M2 := hEreg.symm.trans hl2
        cases hMe
        have hn2e : n = n2 := Nat.succ.inj hn2
        cases hn2e
        subst hj
        obtain ⟨g, hg⟩ := merged_map_form E.fields (some P)
        rw [hg] at hinit
        have hkeys : kvs.map Prod.fst = E.fields.map Prod.fst :=
          serializeFields_keys _ _ _ _ hser
        have hmerge : mergeFields E.fields (some (.vobj kvs))
            = E.fields.map (fun e => (e.1, e.2.setValue (getv kvs e.1))) := by
          show mergeEntries E.fields kvs = _
          rw [mergeEntries_eq_map]
          refine List.map_congr_left ?_
          intro e he
          have hcont : (E.fields.map Prod.fst).contains e.1 = true :=
            contains_of_mem (List.mem_map.mpr ⟨e, he, rfl⟩)
          have hhk : hasKey kvs e.1 = true := by
            rw [hasKey_keys, hkeys]
            exact hcont
          have hnodk : (kvs.map Prod.fst).Nodup := by
            rw [hkeys]
            exact hE.1
          rw [mvg_eq_getv _ _ kvs hnodk hhk hcont]
        simp only [instantiate]
        rw [hE.2.2.1, hmerge,
          fieldsRT_walk reg hreg n IHrt IHid E.fields g props kvs hE.1 hE.2.2.2
            hinit hser]
    · intro E P i hE h1
      simp only [instantiate] at h1
      rw [hE.2.2.1] at h1
      cases hinit : initFieldsG (fun M2 d => instantiate reg n M2 d) reg []
          (mergeFields E.fields (some P)) with
      | none => rw [hinit] at h1; cases h1
      | some props =>
        rw [hinit] at h1
        dsimp only at h1
        cases h1
        obtain ⟨g, hg⟩ := merged_map_form E.fields (some P)
        rw [hg] at hinit
        have hpkeys : props.map Prod.fst = E.fields.map Prod.fst := by
          rw [initFieldsG_keys _ _ _ _ _ hinit, map_fst_map_setValue]
        have hmerge : mergeFields E.fields (some (.vinst E.entity props))
            = E.fields.map (fun e => (e.1, e.2.setValue (getv props e.1))) := by
          show mergeEntries E.fields props = _
          rw [mergeEntries_eq_map]
          refine List.map_congr_left ?_
          intro e he
          have hcont : (E.fields.map Prod.fst).contains e.1 = true :=
            contains_of_mem (List.mem_map.mpr ⟨e, he, rfl⟩)
          have hhk : hasKey props e.1 = true := by
            rw [hasKey_keys, hpkeys]
            exact hcont
          have hnodk : (props.map Prod.fst).Nodup := by
            rw [hpkeys]
            exact hE.1
          rw [mvg_eq_getv _ _ props hnodk hhk hcont]
        simp only [instantiate]
        rw [hE.2.2.1, hmerge,
          fieldsID_walk reg hreg n IHid E.fields g props hE.1 hE.2.2.2 hinit]

/-- C5 amended: the round trip `instantiate(E, toJson(instantiate(E, P)))`
reproduces `instantiate(E, P)` whenever no field of any involved model
carries a mutator (the code applies mutators on every instantiation, so
even an invertible mutator breaks the round trip), all relations are
non-polymorphic string-named targets of a well-formed registry, no model
declares a field named `"0"` or duplicate field names, and the original
instantiation and serialization succeed. -/
theorem claim_C5_roundtrip (reg : Registry) (n : Nat) (E : ModelDef)
    (P i j : Val) (hreg : regWF reg) (hE : modelWF E)
    (hEreg : lookupReg reg E.entity = some E)
    (h1 : instantiate reg n E (some P) = some i)
    (h2 : toJson reg n i = some j) :
    instantiate reg n E (some j) = some i :=
  (roundtrip_main reg hreg n).1 E P i j hE hEreg h1 h2

theorem userB_wf : modelWF userB := by
  refine ⟨by decide, by decide, rfl, ?_⟩
  intro e he
  rcases List.mem_cons.mp he with rfl | he2
  · rfl
  rcases List.mem_cons.mp he2 with rfl | he3
  · rfl
  exact absurd he3 (List.not_mem_nil _)

theorem postB_wf : modelWF postB := by
  refine ⟨by decide, by decide, rfl, ?_⟩
  intro e he
  rcases List.mem_cons.mp he with rfl | he2
  · rfl
  rcases List.mem_cons.mp he2 with rfl | he3
  · rfl
  rcases List.mem_cons.mp he3 with rfl | he4
  · rfl
  exact absurd he4 (List.not_mem_nil _)

theorem regB_wf : regWF regB := by
  intro p hp
  rcases List.mem_cons.mp hp with rfl | hp2
  · exact ⟨rfl, userB_wf⟩
  rcases List.mem_cons.mp hp2 with rfl | hp3
  · exact ⟨rfl, postB_wf⟩
  exact absurd hp3 (List.not_mem_nil _)

/-- Witness for C5 amended: the spec's belongsTo scenario — instantiating a
`Post` with an embedded `author`, serializing, and re-instantiating the
json reproduces the original instance exactly. -/
theorem claim_C5_witness :
    instantiate regB 5 postB (some (.vobj [("id", .vnum 10), ("title", .vstr "Hi"),
        ("author", .vobj [("id", .vnum 1), ("name", .vstr "Ada")])]))
      = some (.vinst "Post" [("id", .vnum 10), ("title", .vstr "Hi"),
        ("author", .vinst "User" [("id", .vnum 1), ("name", .vstr "Ada")])])
    ∧ toJson regB 5 (.vinst "Post" [("id", .vnum 10), ("title", .vstr "Hi"),
        ("author", .vinst "User" [("id", .vnum 1), ("name", .vstr "Ada")])])
      = some (.vobj [("id", .vnum 10), ("title", .vstr "Hi"),
        ("author", .vobj [("id", .vnum 1), ("name", .vstr "Ada")])])
    ∧ instantiate regB 5 postB (some (.vobj [("id", .vnum 10), ("title", .vstr "Hi"),
        ("author", .vobj [("id", .vnum 1), ("name", .vstr "Ada")])]))
      = some (.vinst "Post" [("id", .vnum 10), ("title", .vstr "Hi"),
        ("author", .vinst "User" [("id", .vnum 1), ("name", .vstr "Ada")])]) :=
  ⟨rfl, rfl,
    claim_C5_roundtrip regB 5 postB
      (.vobj [("id", .vnum 10), ("title", .vstr "Hi"),
        ("author", .vobj [("id", .vnum 1), ("name", .vstr "Ada")])])
      (.vinst "Post" [("id", .vnum 10), ("title", .vstr "Hi"),
        ("author", .vinst "User" [("id", .vnum 1), ("name", .vstr "Ada")])])
      (.vobj [("id", .vnum 10), ("title", .vstr "Hi"),
        ("author", .vobj [("id", .vnum 1), ("name", .vstr "Ada")])])
      regB_wf postB_wf rfl rfl rfl⟩

end VuexOrm
